import Mathlib

/-!
Verification of the Facebook Browser API service (`app.py`, `headless_browser.py`).

Strings are modelled as `List Char` (Python `str` is a sequence of code points).
The URL-normalisation helper `normalize_facebook_url` delegates to CPython's
`urllib.parse.urlparse` / `urlunparse`; those library routines are embedded
faithfully below (`pyUrlparse`, `pyUrlunparse`), including the leading
C0-control/space strip, the removal of tab/CR/LF bytes, and the
`ValueError("Invalid IPv6 URL")` raised on an authority with mismatched
square brackets.  The effectful parts of the service (Selenium driver
creation, key injection, the Flask handlers) are embedded as deterministic
functions over an explicit environment oracle `Env` that decides the outcome
of each external call, together with observable traces (keys sent, sessions
created, quit calls, probe counts).
-/

namespace FBBrowser

instance {ε α : Type} [DecidableEq ε] [DecidableEq α] : DecidableEq (Except ε α) := fun x y =>
  match x, y with
  | .ok a, .ok b =>
    if h : a = b then isTrue (by rw [h]) else isFalse (by intro hc; cases hc; exact h rfl)
  | .error a, .error b =>
    if h : a = b then isTrue (by rw [h]) else isFalse (by intro hc; cases hc; exact h rfl)
  | .ok _, .error _ => isFalse (by intro hc; cases hc)
  | .error _, .ok _ => isFalse (by intro hc; cases hc)

/-! ## Character classes used by `urllib.parse` -/

/-- WHATWG C0 control characters and space (code points 0x00–0x20); CPython's
`urlsplit` strips these from the front of the URL before parsing. -/
def isC0OrSpace (c : Char) : Bool := decide (c.toNat ≤ 32)

/-- The unsafe bytes (tab, CR, LF) that CPython's `urlsplit` deletes from the
URL before parsing. -/
def isUnsafeUrlByte (c : Char) : Bool := c == '\t' || c == '\r' || c == '\n'

/-- Characters allowed in a URL scheme (`scheme_chars` in `urllib.parse`):
ASCII letters, digits, and the three punctuation marks below. -/
def isSchemeChar (c : Char) : Bool := c.isAlphanum || c == '+' || c == '-' || c == '.'

/-- The three delimiters that terminate the network-location component. -/
def isNetlocDelim (c : Char) : Bool := c == '/' || c == '?' || c == '#'

/-- ASCII lower-casing of a character, as `str.lower` acts on the ASCII
letters.  `urlsplit` applies `.lower()` only to a scheme candidate that has
already been checked to consist of ASCII `scheme_chars`, so the ASCII case
table is the faithful model in context. -/
def asciiLowerChar : Char → Char
  | 'A' => 'a'
  | 'B' => 'b'
  | 'C' => 'c'
  | 'D' => 'd'
  | 'E' => 'e'
  | 'F' => 'f'
  | 'G' => 'g'
  | 'H' => 'h'
  | 'I' => 'i'
  | 'J' => 'j'
  | 'K' => 'k'
  | 'L' => 'l'
  | 'M' => 'm'
  | 'N' => 'n'
  | 'O' => 'o'
  | 'P' => 'p'
  | 'Q' => 'q'
  | 'R' => 'r'
  | 'S' => 's'
  | 'T' => 't'
  | 'U' => 'u'
  | 'V' => 'v'
  | 'W' => 'w'
  | 'X' => 'x'
  | 'Y' => 'y'
  | 'Z' => 'z'
  | c => c

/-! ## Splitting primitives

`splitFirst c l` mirrors Python's `l.split(c, 1)` when `c ∈ l` (and `find`),
`splitLast` mirrors `rfind`-based splitting. -/

/-- Split a list at the first occurrence of `c`: returns the part before and
the part after that occurrence, or `none` when `c` does not occur. -/
def splitFirst (c : Char) : List Char → Option (List Char × List Char)
  | [] => none
  | x :: xs =>
    if x = c then some ([], xs)
    else
      match splitFirst c xs with
      | some (a, b) => some (x :: a, b)
      | none => none

/-- Split a list at the last occurrence of `c`. -/
def splitLast (c : Char) (l : List Char) : Option (List Char × List Char) :=
  match splitFirst c l.reverse with
  | some (a, b) => some (b.reverse, a.reverse)
  | none => none

theorem splitFirst_of_not_mem (c : Char) (l : List Char) (h : c ∉ l) :
    splitFirst c l = none := by
  induction l with
  | nil => rfl
  | cons x xs ih =>
    rw [List.mem_cons, not_or] at h
    simp only [splitFirst, if_neg (fun hxc : x = c => h.1 hxc.symm), ih h.2]

theorem splitFirst_append_cons (c : Char) (a b : List Char) (h : c ∉ a) :
    splitFirst c (a ++ c :: b) = some (a, b) := by
  induction a with
  | nil => simp [splitFirst]
  | cons x xs ih =>
    rw [List.mem_cons, not_or] at h
    rw [List.cons_append]
    simp only [splitFirst, if_neg (fun hxc : x = c => h.1 hxc.symm)]
    rw [ih h.2]

theorem splitFirst_eq_some (c : Char) {l a b : List Char}
    (h : splitFirst c l = some (a, b)) : l = a ++ c :: b ∧ c ∉ a := by
  induction l generalizing a b with
  | nil => simp [splitFirst] at h
  | cons x xs ih =>
    by_cases hx : x = c
    · subst hx
      rw [show splitFirst x (x :: xs) = some ([], xs) from by simp [splitFirst]] at h
      simp only [Option.some.injEq, Prod.mk.injEq] at h
      rw [← h.1, ← h.2]
      simp
    · simp only [splitFirst, if_neg hx] at h
      cases hsf : splitFirst c xs with
      | none => rw [hsf] at h; simp at h
      | some p =>
        obtain ⟨a', b'⟩ := p
        rw [hsf] at h
        simp only [Option.some.injEq, Prod.mk.injEq] at h
        obtain ⟨hxs, hnot⟩ := ih hsf
        rw [← h.1, ← h.2]
        subst hxs
        refine ⟨by simp, ?_⟩
        rw [List.mem_cons, not_or]
        exact ⟨fun hc => hx hc.symm, hnot⟩

theorem splitFirst_isSome_of_mem (c : Char) {l : List Char} (h : c ∈ l) :
    (splitFirst c l).isSome = true := by
  induction l with
  | nil => simp at h
  | cons x xs ih =>
    simp only [splitFirst]
    by_cases hx : x = c
    · rw [if_pos hx]; rfl
    · rw [if_neg hx]
      rw [List.mem_cons] at h
      rcases h with h | h
      · exact absurd h.symm hx
      · have hs := ih h
        cases hsf : splitFirst c xs with
        | none => rw [hsf] at hs; simp at hs
        | some p => obtain ⟨a, b⟩ := p; simp [hsf]

theorem splitLast_of_not_mem (c : Char) (l : List Char) (h : c ∉ l) :
    splitLast c l = none := by
  unfold splitLast
  rw [splitFirst_of_not_mem c l.reverse (by simpa using h)]

theorem splitLast_append_cons (c : Char) (a b : List Char) (h : c ∉ b) :
    splitLast c (a ++ c :: b) = some (a, b) := by
  unfold splitLast
  have : (a ++ c :: b).reverse = b.reverse ++ c :: a.reverse := by
    simp [List.reverse_append]
  rw [this, splitFirst_append_cons c _ _ (by simpa using h)]
  simp

theorem splitLast_eq_some (c : Char) {l a b : List Char}
    (h : splitLast c l = some (a, b)) : l = a ++ c :: b ∧ c ∉ b := by
  unfold splitLast at h
  cases hsf : splitFirst c l.reverse with
  | none => rw [hsf] at h; exact Option.noConfusion h
  | some p =>
    obtain ⟨a', b'⟩ := p
    rw [hsf] at h
    simp only [Option.some.injEq, Prod.mk.injEq] at h
    obtain ⟨ha, hb⟩ := h
    obtain ⟨hrev, hnot⟩ := splitFirst_eq_some c hsf
    have hl : l = b'.reverse ++ c :: a'.reverse := by
      have := congrArg List.reverse hrev
      simpa [List.reverse_append] using this
    subst ha; subst hb
    refine ⟨hl, by simpa using hnot⟩

theorem takeWhile_dropWhile_append (P : Char → Bool) (a b : List Char)
    (ha : ∀ x ∈ a, P x = true) (hb : ∀ x t, b = x :: t → P x = false) :
    (a ++ b).takeWhile P = a ∧ (a ++ b).dropWhile P = b := by
  induction a with
  | nil =>
    cases b with
    | nil => simp
    | cons x t =>
      have := hb x t rfl
      simp [List.takeWhile_cons, List.dropWhile_cons, this]
  | cons x xs ih =>
    have hx := ha x (List.mem_cons_self x xs)
    have ihr := ih (fun y hy => ha y (List.mem_cons_of_mem x hy))
    simp [List.takeWhile_cons, List.dropWhile_cons, hx, ihr.1, ihr.2]

theorem dropWhile_head_false (P : Char → Bool) (l : List Char) {x : Char} {t : List Char}
    (h : l.dropWhile P = x :: t) : P x = false := by
  induction l with
  | nil => simp at h
  | cons y ys ih =>
    rw [List.dropWhile_cons] at h
    by_cases hy : P y = true
    · rw [if_pos hy] at h; exact ih h
    · rw [if_neg hy] at h
      cases h
      exact Bool.not_eq_true _ ▸ (by simpa using hy)

/-! ## Embedding of `urllib.parse.urlparse` / `urlunparse`

`pyUrlparse` follows CPython's `urlsplit` (strip leading C0/space, delete
tab/CR/LF, optional scheme, optional `//netloc` with the mismatched-bracket
`ValueError`, fragment split at the first `#`, query split at the first `?`)
followed by `urlparse`'s parameter split (at the first `;` after the last
`/` of the remaining path). -/

/-- The six components of `urllib.parse.ParseResult`. -/
structure UrlComponents where
  scheme : List Char
  netloc : List Char
  path : List Char
  params : List Char
  query : List Char
  fragment : List Char
deriving DecidableEq

/-- Validity of a scheme candidate in `urlsplit`: the text before the first
`:` is accepted when it is nonempty (`i > 0`), its first character is an
ASCII letter (`url[0].isascii() and url[0].isalpha()`), and every character
is in `scheme_chars`. -/
def schemeCandOk (bef : List Char) : Bool :=
  match bef with
  | [] => false
  | c :: _ => c.isAlpha && bef.all isSchemeChar

/-- Scheme extraction of `urlsplit`: the accepted candidate before the first
`:` becomes the scheme, lowercased; otherwise no scheme is recognised. -/
def parseScheme (u : List Char) : List Char × List Char :=
  match splitFirst ':' u with
  | some (bef, aft) =>
    if schemeCandOk bef then (bef.map asciiLowerChar, aft) else ([], u)
  | none => ([], u)

/-- Netloc extraction of `urlsplit` (`_splitnetloc` plus the IPv6 bracket
check): when the remainder starts with `//`, the netloc runs to the next
`/`, `?` or `#`; an authority containing `[` without `]` (or vice versa)
raises `ValueError("Invalid IPv6 URL")`. -/
def parseNetloc (u : List Char) : Except String (List Char × List Char) :=
  match u with
  | '/' :: '/' :: rest =>
    let netloc := rest.takeWhile (fun c => !isNetlocDelim c)
    let rest2 := rest.dropWhile (fun c => !isNetlocDelim c)
    if ('[' ∈ netloc ∧ ']' ∉ netloc) ∨ (']' ∈ netloc ∧ '[' ∉ netloc) then
      .error "Invalid IPv6 URL"
    else .ok (netloc, rest2)
  | _ => .ok ([], u)

/-- Fragment split of `urlsplit`: everything after the first `#`. -/
def splitFragment (u : List Char) : List Char × List Char :=
  match splitFirst '#' u with
  | some (a, b) => (a, b)
  | none => (u, [])

/-- Query split of `urlsplit`: everything after the first `?` (the fragment
having already been removed). -/
def splitQuery (u : List Char) : List Char × List Char :=
  match splitFirst '?' u with
  | some (a, b) => (a, b)
  | none => (u, [])

/-- Parameter split of `urlparse` (`_splitparams`): when the path contains a
`;`, split at the first `;` that follows the last `/` (or at the first `;`
when there is no `/`). -/
def splitParams (u : List Char) : List Char × List Char :=
  if ';' ∈ u then
    if '/' ∈ u then
      match splitLast '/' u with
      | some (a, b) =>
        match splitFirst ';' b with
        | some (b1, b2) => (a ++ '/' :: b1, b2)
        | none => (u, [])
      | none => (u, [])
    else
      match splitFirst ';' u with
      | some (a, b) => (a, b)
      | none => (u, [])
  else (u, [])

/-- The schemes for which `urlparse` separates the `;parameters` component
(`uses_params` in `urllib.parse`, CPython 3.11). -/
def usesParams : List (List Char) :=
  ["", "ftp", "hdl", "prospero", "http", "imap", "https", "shttp", "rtsp",
   "rtsps", "rtspu", "sip", "sips", "mms", "sftp", "tel"].map String.toList

/-- The schemes that use a network location (`uses_netloc` in
`urllib.parse`, CPython 3.11); `urlunsplit` re-inserts `//` for these. -/
def usesNetloc : List (List Char) :=
  ["", "ftp", "http", "gopher", "nntp", "telnet", "imap", "wais", "file",
   "mms", "https", "shttp", "snews", "prospero", "rtsp", "rtsps", "rtspu",
   "rsync", "svn", "svn+ssh", "sftp", "nfs", "git", "git+ssh", "ws",
   "wss"].map String.toList

/-- The fragment/query/params stage of `urlparse`, applied to what remains
after scheme and netloc have been removed; the parameter split happens only
for schemes in `uses_params`.  Returns (path, params, query, fragment). -/
def splitTail (scheme u : List Char) : List Char × List Char × List Char × List Char :=
  let fr := splitFragment u
  let qu := splitQuery fr.1
  let pp := if scheme ∈ usesParams then splitParams qu.1 else (qu.1, [])
  (pp.1, pp.2, qu.2, fr.2)

/-- Embedding of `urllib.parse.urlparse` (CPython 3.11) on a string, with
the `ValueError("Invalid IPv6 URL")` of `urlsplit` surfaced in the `Except`
error.  (The additional 3.11 validations `_check_bracketed_host` — which can
reject an authority whose brackets are matched but not a valid IP literal —
and `_checknetloc` — which can reject some non-ASCII authorities under NFKC
normalisation — are further failure modes of the real function that are not
modelled; neither can fire on any input where this model is invoked below.) -/
def pyUrlparse (url : List Char) : Except String UrlComponents :=
  let u := (url.dropWhile isC0OrSpace).filter (fun c => !isUnsafeUrlByte c)
  let sr := parseScheme u
  match parseNetloc sr.2 with
  | .error e => .error e
  | .ok (netloc, rest) =>
    let t := splitTail sr.1 rest
    .ok ⟨sr.1, netloc, t.1, t.2.1, t.2.2.1, t.2.2.2⟩

/-- Path/params join of `urlunparse`: `url = "%s;%s" % (url, params)` when
params is nonempty. -/
def joinParams (path params : List Char) : List Char :=
  if params = [] then path else path ++ ';' :: params

/-- Embedding of `urllib.parse.urlunsplit` (CPython 3.11): the `//` is
re-inserted when there is a netloc, or when the scheme is one that uses a
network location and the path does not already begin with `//`. -/
def pyUrlunsplit (scheme netloc url query fragment : List Char) : List Char :=
  let url1 :=
    if netloc ≠ [] ∨ (scheme ≠ [] ∧ scheme ∈ usesNetloc ∧ url.take 2 ≠ ['/', '/']) then
      '/' :: '/' :: netloc ++ (if url ≠ [] ∧ url.take 1 ≠ ['/'] then '/' :: url else url)
    else url
  let url2 := if scheme ≠ [] then scheme ++ ':' :: url1 else url1
  let url3 := if query ≠ [] then url2 ++ '?' :: query else url2
  if fragment ≠ [] then url3 ++ '#' :: fragment else url3

/-- Embedding of `urllib.parse.urlunparse`. -/
def pyUrlunparse (p : UrlComponents) : List Char :=
  pyUrlunsplit p.scheme p.netloc (joinParams p.path p.params) p.query p.fragment

/-- The regular expression `re.fullmatch(r'/(\d+)/?', path)` of
`normalize_facebook_url`: a slash, one or more digits, and an optional
trailing slash; returns the digit group.  (Python's `\d` also accepts
non-ASCII decimal digits; the ASCII digit class is used here, which agrees
with the source on every ASCII input and affects none of the statements
below.) -/
def numericPathMatch (path : List Char) : Option (List Char) :=
  match path with
  | x :: rest =>
    if x = '/' then
      let ds := if rest.getLast? = some '/' then rest.dropLast else rest
      if ds ≠ [] ∧ ds.all Char.isDigit = true then some ds else none
    else none
  | [] => none

/-- Substring containment, as Python's `needle in hay` on strings. -/
def strContains (hay needle : List Char) : Bool :=
  match hay with
  | [] => needle.isEmpty
  | _ :: t => needle.isPrefixOf hay || strContains t needle

theorem strContains_of_isPrefixOf {hay needle : List Char}
    (h : needle.isPrefixOf hay = true) : strContains hay needle = true := by
  cases hay with
  | nil =>
    cases needle with
    | nil => rfl
    | cons x xs => simp [List.isPrefixOf] at h
  | cons x t => simp [strContains, h]

/-- First stanza of `normalize_facebook_url` (app.py lines 231–236): ensure
a scheme and base.  A string not starting with `http` is rooted under
`https://` when it mentions `facebook.com`, otherwise under
`https://www.facebook.com/`, with leading slashes stripped from it. -/
def prefixedUrl (url : List Char) : List Char :=
  if !("http".toList.isPrefixOf url) then
    if strContains url "facebook.com".toList then
      "https://".toList ++ url.dropWhile (fun c => c == '/')
    else
      "https://www.facebook.com/".toList ++ url.dropWhile (fun c => c == '/')
  else url

/-- Embedding of `normalize_facebook_url` (app.py lines 226–258).  The
`Except` carries the `ValueError` that `urlparse` raises on an authority
with mismatched square brackets; on all other inputs the function returns. -/
def normalize_facebook_url (url0 : List Char) : Except String (List Char) :=
  let url := prefixedUrl url0
  match pyUrlparse url with
  | .error e => .error e
  | .ok p =>
    let netloc :=
      if "facebook.com".toList.isSuffixOf p.netloc && !("www.".toList.isPrefixOf p.netloc) then
        "www.facebook.com".toList
      else p.netloc
    let path := if p.path = [] then ['/'] else p.path
    match numericPathMatch path with
    | some uid =>
      .ok (pyUrlunparse { p with netloc := netloc, path := "/profile.php".toList,
                                 query := "id=".toList ++ uid })
    | none =>
      if netloc ≠ p.netloc then .ok (pyUrlunparse { p with netloc := netloc })
      else .ok url

/-! ## Facts about the character classes and splitters -/

def lowercaseAscii : List Char :=
  ['a', 'b', 'c', 'd', 'e', 'f', 'g', 'h', 'i', 'j', 'k', 'l', 'm',
   'n', 'o', 'p', 'q', 'r', 's', 't', 'u', 'v', 'w', 'x', 'y', 'z']

theorem asciiLowerChar_eq_or_mem (c : Char) :
    asciiLowerChar c = c ∨ asciiLowerChar c ∈ lowercaseAscii := by
  unfold asciiLowerChar
  split
  all_goals first | (right; decide) | (left; rfl)

theorem asciiLowerChar_idem (c : Char) :
    asciiLowerChar (asciiLowerChar c) = asciiLowerChar c := by
  rcases asciiLowerChar_eq_or_mem c with h | h
  · rw [h]; exact h
  · have hl : ∀ d ∈ lowercaseAscii, asciiLowerChar d = d := by decide
    rw [hl _ h]

theorem asciiLowerChar_schemeChar {c : Char} (h : isSchemeChar c = true) :
    isSchemeChar (asciiLowerChar c) = true := by
  rcases asciiLowerChar_eq_or_mem c with he | he
  · rw [he]; exact h
  · have hl : ∀ d ∈ lowercaseAscii, isSchemeChar d = true := by decide
    exact hl _ he

theorem asciiLowerChar_alpha {c : Char} (h : c.isAlpha = true) :
    (asciiLowerChar c).isAlpha = true := by
  rcases asciiLowerChar_eq_or_mem c with he | he
  · rw [he]; exact h
  · have hl : ∀ d ∈ lowercaseAscii, d.isAlpha = true := by decide
    exact hl _ he

theorem asciiLowerChar_not_unsafe {c : Char} (h : isUnsafeUrlByte c = false) :
    isUnsafeUrlByte (asciiLowerChar c) = false := by
  rcases asciiLowerChar_eq_or_mem c with he | he
  · rw [he]; exact h
  · have hl : ∀ d ∈ lowercaseAscii, isUnsafeUrlByte d = false := by decide
    exact hl _ he

theorem isSchemeChar_ne_colon {c : Char} (h : isSchemeChar c = true) : c ≠ ':' := by
  intro hc
  subst hc
  simp [isSchemeChar, Char.isAlphanum, Char.isAlpha, Char.isDigit, Char.isUpper,
    Char.isLower] at h

theorem alpha_not_C0 {c : Char} (h : c.isAlpha = true) : isC0OrSpace c = false := by
  simp only [Char.isAlpha, Char.isUpper, Char.isLower, Bool.or_eq_true, Bool.and_eq_true,
    decide_eq_true_eq] at h
  have h65 : (65 : Nat) ≤ c.toNat ∨ (97 : Nat) ≤ c.toNat := by
    rcases h with ⟨h1, _⟩ | ⟨h1, _⟩
    · exact Or.inl (by exact_mod_cast h1)
    · exact Or.inr (by exact_mod_cast h1)
  simp only [isC0OrSpace, decide_eq_false_iff_not]
  omega

theorem splitFirst_none_not_mem {c : Char} {l : List Char}
    (h : splitFirst c l = none) : c ∉ l := by
  intro hm
  have := splitFirst_isSome_of_mem c hm
  rw [h] at this
  simp at this

theorem splitFirst_fst_head {c x : Char} {l t a b : List Char}
    (h : splitFirst c l = some (a, b)) (hl : l = x :: t) (hx : x ≠ c) :
    ∃ t2, a = x :: t2 := by
  obtain ⟨hdec, _⟩ := splitFirst_eq_some c h
  subst hl
  cases a with
  | nil => simp at hdec; exact absurd hdec.1 hx
  | cons a0 as =>
    rw [List.cons_append] at hdec
    injection hdec with h1 _
    exact ⟨as, by rw [h1]⟩

/-! Fragment-split facts. -/

theorem splitFragment_of_not_mem {u : List Char} (h : '#' ∉ u) :
    splitFragment u = (u, []) := by
  unfold splitFragment
  rw [splitFirst_of_not_mem _ _ h]

theorem splitFragment_append {a b : List Char} (h : '#' ∉ a) :
    splitFragment (a ++ '#' :: b) = (a, b) := by
  unfold splitFragment
  rw [splitFirst_append_cons _ _ _ h]

theorem splitFragment_cases {u a f : List Char} (h : splitFragment u = (a, f)) :
    (u = a ++ '#' :: f ∧ '#' ∉ a) ∨ (a = u ∧ f = [] ∧ '#' ∉ u) := by
  unfold splitFragment at h
  cases hsf : splitFirst '#' u with
  | none =>
    rw [hsf] at h
    injection h with h1 h2
    exact Or.inr ⟨h1.symm, h2.symm, splitFirst_none_not_mem hsf⟩
  | some p =>
    obtain ⟨a', b'⟩ := p
    rw [hsf] at h
    injection h with h1 h2
    subst h1; subst h2
    exact Or.inl (splitFirst_eq_some _ hsf)

/-! Query-split facts. -/

theorem splitQuery_of_not_mem {u : List Char} (h : '?' ∉ u) :
    splitQuery u = (u, []) := by
  unfold splitQuery
  rw [splitFirst_of_not_mem _ _ h]

theorem splitQuery_append {a b : List Char} (h : '?' ∉ a) :
    splitQuery (a ++ '?' :: b) = (a, b) := by
  unfold splitQuery
  rw [splitFirst_append_cons _ _ _ h]

theorem splitQuery_cases {u a q : List Char} (h : splitQuery u = (a, q)) :
    (u = a ++ '?' :: q ∧ '?' ∉ a) ∨ (a = u ∧ q = [] ∧ '?' ∉ u) := by
  unfold splitQuery at h
  cases hsf : splitFirst '?' u with
  | none =>
    rw [hsf] at h
    injection h with h1 h2
    exact Or.inr ⟨h1.symm, h2.symm, splitFirst_none_not_mem hsf⟩
  | some p =>
    obtain ⟨a', b'⟩ := p
    rw [hsf] at h
    injection h with h1 h2
    subst h1; subst h2
    exact Or.inl (splitFirst_eq_some _ hsf)

/-! Parameter-split facts. -/

theorem splitParams_of_not_mem {u : List Char} (h : ';' ∉ u) :
    splitParams u = (u, []) := by
  unfold splitParams
  rw [if_neg h]

theorem splitLast_isSome_of_mem (c : Char) {l : List Char} (h : c ∈ l) :
    ∃ a b, splitLast c l = some (a, b) := by
  have hs := @splitFirst_isSome_of_mem c l.reverse (by simpa using h)
  unfold splitLast
  cases hsf : splitFirst c l.reverse with
  | none => rw [hsf] at hs; simp at hs
  | some p => exact ⟨p.2.reverse, p.1.reverse, rfl⟩

theorem splitParams_cases {u pa pr : List Char} (h : splitParams u = (pa, pr)) :
    (pa = u ∧ pr = []) ∨ u = pa ++ ';' :: pr := by
  unfold splitParams at h
  by_cases hm : ';' ∈ u
  · rw [if_pos hm] at h
    by_cases hs : '/' ∈ u
    · rw [if_pos hs] at h
      cases hsl : splitLast '/' u with
      | none => rw [hsl] at h; injection h with h1 h2; exact Or.inl ⟨h1.symm, h2.symm⟩
      | some p =>
        obtain ⟨a, b⟩ := p
        rw [hsl] at h
        dsimp only at h
        cases hsf : splitFirst ';' b with
        | none => rw [hsf] at h; injection h with h1 h2; exact Or.inl ⟨h1.symm, h2.symm⟩
        | some q =>
          obtain ⟨b1, b2⟩ := q
          rw [hsf] at h
          injection h with h1 h2
          obtain ⟨hu, _⟩ := splitLast_eq_some '/' hsl
          obtain ⟨hb, _⟩ := splitFirst_eq_some ';' hsf
          rw [← h1, ← h2, hu, hb]
          refine Or.inr ?_
          simp
    · rw [if_neg hs] at h
      cases hsf : splitFirst ';' u with
      | none => rw [hsf] at h; injection h with h1 h2; exact Or.inl ⟨h1.symm, h2.symm⟩
      | some q =>
        obtain ⟨a, b⟩ := q
        rw [hsf] at h
        injection h with h1 h2
        rw [← h1, ← h2]
        exact Or.inr (splitFirst_eq_some ';' hsf).1
  · rw [if_neg hm] at h
    injection h with h1 h2
    exact Or.inl ⟨h1.symm, h2.symm⟩

theorem splitParams_no_slash {u pa pr : List Char} (hsp : splitParams u = (pa, pr))
    (h : '/' ∈ u) : '/' ∉ pr := by
  unfold splitParams at hsp
  by_cases hm : ';' ∈ u
  · rw [if_pos hm, if_pos h] at hsp
    cases hsl : splitLast '/' u with
    | none => rw [hsl] at hsp; injection hsp with _ h2; rw [← h2]; simp
    | some p =>
      obtain ⟨a, b⟩ := p
      rw [hsl] at hsp
      dsimp only at hsp
      obtain ⟨_, hnb⟩ := splitLast_eq_some '/' hsl
      cases hsf : splitFirst ';' b with
      | none => rw [hsf] at hsp; injection hsp with _ h2; rw [← h2]; simp
      | some q =>
        obtain ⟨b1, b2⟩ := q
        rw [hsf] at hsp
        injection hsp with _ h2
        rw [← h2]
        obtain ⟨hb, _⟩ := splitFirst_eq_some ';' hsf
        intro hmem
        exact hnb (by rw [hb]; exact List.mem_append_right _ (List.mem_cons_of_mem _ hmem))
  · rw [if_neg hm] at hsp
    injection hsp with _ h2
    rw [← h2]; simp

theorem splitParams_fst_head {u pa pr : List Char} {x : Char} {t : List Char}
    (hsp : splitParams u = (pa, pr)) (hu : u = x :: t) (hx : x ≠ ';') :
    ∃ t2, pa = x :: t2 := by
  unfold splitParams at hsp
  by_cases hm : ';' ∈ u
  · rw [if_pos hm] at hsp
    by_cases hsl8 : '/' ∈ u
    · rw [if_pos hsl8] at hsp
      cases hsl : splitLast '/' u with
      | none => rw [hsl] at hsp; injection hsp with h1 _; rw [← h1]; exact ⟨t, hu⟩
      | some p =>
        obtain ⟨a, b⟩ := p
        rw [hsl] at hsp
        dsimp only at hsp
        cases hsf : splitFirst ';' b with
        | none => rw [hsf] at hsp; injection hsp with h1 _; rw [← h1]; exact ⟨t, hu⟩
        | some q =>
          obtain ⟨b1, b2⟩ := q
          rw [hsf] at hsp
          injection hsp with h1 _
          obtain ⟨hudec, _⟩ := splitLast_eq_some '/' hsl
          rw [← h1]
          cases a with
          | nil =>
            rw [hu] at hudec
            simp only [List.nil_append] at hudec
            injection hudec with hh _
            exact ⟨b1, by rw [← hh]; simp⟩
          | cons a0 as =>
            rw [hu, List.cons_append] at hudec
            injection hudec with hh _
            exact ⟨as ++ '/' :: b1, by rw [← hh]; simp⟩
    · rw [if_neg hsl8] at hsp
      cases hsf : splitFirst ';' u with
      | none => rw [hsf] at hsp; injection hsp with h1 _; rw [← h1]; exact ⟨t, hu⟩
      | some q =>
        obtain ⟨a, b⟩ := q
        rw [hsf] at hsp
        injection hsp with h1 _
        rw [← h1]
        exact splitFirst_fst_head hsf hu hx
  · rw [if_neg hm] at hsp
    injection hsp with h1 _
    rw [← h1]; exact ⟨t, hu⟩

theorem splitParams_join_fix {u pa pr : List Char} (h : splitParams u = (pa, pr)) :
    splitParams (joinParams pa pr) = (pa, pr) := by
  unfold splitParams at h
  by_cases hm : ';' ∈ u
  · rw [if_pos hm] at h
    by_cases hs : '/' ∈ u
    · rw [if_pos hs] at h
      cases hsl : splitLast '/' u with
      | none =>
        obtain ⟨a, b, hsome⟩ := splitLast_isSome_of_mem '/' hs
        rw [hsome] at hsl
        exact Option.noConfusion hsl
      | some p =>
        obtain ⟨a, b⟩ := p
        rw [hsl] at h
        dsimp only at h
        obtain ⟨hu, hnb⟩ := splitLast_eq_some '/' hsl
        cases hsf : splitFirst ';' b with
        | none =>
          rw [hsf] at h
          injection h with h1 h2
          rw [← h1, ← h2]
          rw [show joinParams u [] = u from by unfold joinParams; rw [if_pos rfl]]
          unfold splitParams
          rw [if_pos hm, if_pos hs, hsl]
          dsimp only
          rw [hsf]
        | some q =>
          obtain ⟨b1, b2⟩ := q
          rw [hsf] at h
          injection h with h1 h2
          obtain ⟨hb, hnsb1⟩ := splitFirst_eq_some ';' hsf
          have hb1slash : '/' ∉ b1 := fun hmem => hnb (hb ▸ List.mem_append_left _ hmem)
          by_cases hb2 : b2 = []
          · rw [← h1, ← h2, hb2]
            rw [show joinParams (a ++ '/' :: b1) [] = a ++ '/' :: b1 from by
              unfold joinParams; rw [if_pos rfl]]
            by_cases hm2 : ';' ∈ a ++ '/' :: b1
            · unfold splitParams
              rw [if_pos hm2, if_pos (by simp : '/' ∈ a ++ '/' :: b1)]
              rw [splitLast_append_cons '/' a b1 hb1slash]
              dsimp only
              rw [splitFirst_of_not_mem ';' b1 hnsb1]
            · exact splitParams_of_not_mem hm2
          · rw [← h1, ← h2]
            rw [show joinParams (a ++ '/' :: b1) b2 = a ++ '/' :: b1 ++ ';' :: b2 from by
              unfold joinParams; rw [if_neg hb2]]
            have hjoin : a ++ '/' :: b1 ++ ';' :: b2 = u := by rw [hu, hb]; simp
            rw [hjoin]
            unfold splitParams
            rw [if_pos hm, if_pos hs, hsl]
            dsimp only
            rw [hsf]
    · rw [if_neg hs] at h
      cases hsf : splitFirst ';' u with
      | none => exact absurd hm (splitFirst_none_not_mem hsf)
      | some q =>
        obtain ⟨a, b⟩ := q
        rw [hsf] at h
        injection h with h1 h2
        obtain ⟨hu, hnsa⟩ := splitFirst_eq_some ';' hsf
        by_cases hb' : b = []
        · rw [← h1, ← h2, hb']
          rw [show joinParams a [] = a from by unfold joinParams; rw [if_pos rfl]]
          exact splitParams_of_not_mem hnsa
        · rw [← h1, ← h2]
          rw [show joinParams a b = a ++ ';' :: b from by unfold joinParams; rw [if_neg hb']]
          rw [← hu]
          unfold splitParams
          rw [if_pos hm, if_neg hs, hsf]
  · rw [if_neg hm] at h
    injection h with h1 h2
    rw [← h1, ← h2]
    rw [show joinParams u [] = u from by unfold joinParams; rw [if_pos rfl]]
    exact splitParams_of_not_mem hm

/-! Scheme-extraction facts. -/

theorem all_schemeChar_not_colon {l : List Char} (h : l.all isSchemeChar = true) :
    ':' ∉ l := by
  intro hm
  rw [List.all_eq_true] at h
  exact isSchemeChar_ne_colon (h _ hm) rfl

theorem parseScheme_compute (c : Char) (bs rest : List Char)
    (hal : c.isAlpha = true) (hsc : (c :: bs).all isSchemeChar = true) :
    parseScheme ((c :: bs) ++ ':' :: rest) = ((c :: bs).map asciiLowerChar, rest) := by
  unfold parseScheme
  rw [splitFirst_append_cons ':' _ _ (all_schemeChar_not_colon hsc)]
  dsimp only
  rw [if_pos (by simp [schemeCandOk, hal, hsc])]

theorem parseScheme_cases {u s r : List Char} (h : parseScheme u = (s, r)) :
    (s = [] ∧ r = u) ∨
    ∃ c bs, u = (c :: bs) ++ ':' :: r ∧ c.isAlpha = true ∧
      (c :: bs).all isSchemeChar = true ∧ s = (c :: bs).map asciiLowerChar := by
  unfold parseScheme at h
  cases hsf : splitFirst ':' u with
  | none =>
    rw [hsf] at h
    injection h with h1 h2
    exact Or.inl ⟨h1.symm, h2.symm⟩
  | some p =>
    obtain ⟨bef, aft⟩ := p
    rw [hsf] at h
    dsimp only at h
    by_cases hcond : schemeCandOk bef = true
    · rw [if_pos hcond] at h
      injection h with h1 h2
      cases bef with
      | nil => exact absurd hcond (by unfold schemeCandOk; simp)
      | cons c bs =>
        unfold schemeCandOk at hcond
        rw [Bool.and_eq_true] at hcond
        obtain ⟨hdec, _⟩ := splitFirst_eq_some ':' hsf
        exact Or.inr ⟨c, bs, by rw [← h2]; exact hdec, hcond.1, hcond.2, h1.symm⟩
    · rw [if_neg hcond] at h
      injection h with h1 h2
      exact Or.inl ⟨h1.symm, h2.symm⟩

/-! Netloc-extraction facts. -/

theorem parseNetloc_cons {x : Char} {t : List Char} (hx : x ≠ '/') :
    parseNetloc (x :: t) = .ok ([], x :: t) := by
  unfold parseNetloc
  split
  · next rest heq =>
    injection heq with h1 _
    exact absurd h1 hx
  · rfl

theorem parseNetloc_not_double {u : List Char} (hu : u.take 2 ≠ ['/', '/']) :
    parseNetloc u = .ok ([], u) := by
  cases u with
  | nil => rfl
  | cons x t =>
    by_cases hx : x = '/'
    · subst hx
      cases t with
      | nil => rfl
      | cons y t2 =>
        by_cases hy : y = '/'
        · subst hy
          exact absurd rfl hu
        · unfold parseNetloc
          split
          · next rest heq =>
            injection heq with _ h2
            injection h2 with h3 _
            exact absurd h3 hy
          · rfl
    · exact parseNetloc_cons hx

theorem parseNetloc_compute (nl r : List Char)
    (hall : ∀ x ∈ nl, isNetlocDelim x = false)
    (hr : r = [] ∨ ∃ x t, r = x :: t ∧ isNetlocDelim x = true)
    (hbr : ¬ (('[' ∈ nl ∧ ']' ∉ nl) ∨ (']' ∈ nl ∧ '[' ∉ nl))) :
    parseNetloc ('/' :: '/' :: (nl ++ r)) = .ok (nl, r) := by
  have htw := takeWhile_dropWhile_append (fun c => !isNetlocDelim c) nl r
    (fun x hx => by simp [hall x hx])
    (fun x t hxt => by
      rcases hr with hr | ⟨y, ty, hy, hdy⟩
      · rw [hr] at hxt; exact absurd hxt (List.noConfusion)
      · rw [hy] at hxt
        injection hxt with h1 _
        rw [h1] at hdy
        simp [hdy])
  show (let netloc := (nl ++ r).takeWhile (fun c => !isNetlocDelim c)
        let rest2 := (nl ++ r).dropWhile (fun c => !isNetlocDelim c)
        if ('[' ∈ netloc ∧ ']' ∉ netloc) ∨ (']' ∈ netloc ∧ '[' ∉ netloc) then
          Except.error "Invalid IPv6 URL"
        else Except.ok (netloc, rest2)) = Except.ok (nl, r)
  rw [htw.1, htw.2, if_neg hbr]

theorem parseNetloc_sound {u nl r : List Char} (h : parseNetloc u = .ok (nl, r)) :
    (nl = [] ∧ r = u) ∨
    (u = '/' :: '/' :: (nl ++ r) ∧ nl.all (fun c => !isNetlocDelim c) = true ∧
     (r = [] ∨ ∃ x t, r = x :: t ∧ isNetlocDelim x = true) ∧
     ¬ (('[' ∈ nl ∧ ']' ∉ nl) ∨ (']' ∈ nl ∧ '[' ∉ nl))) := by
  unfold parseNetloc at h
  split at h
  case _ v rest =>
    dsimp only at h
    by_cases hbr : ('[' ∈ rest.takeWhile (fun c => !isNetlocDelim c) ∧
        ']' ∉ rest.takeWhile (fun c => !isNetlocDelim c)) ∨
        (']' ∈ rest.takeWhile (fun c => !isNetlocDelim c) ∧
        '[' ∉ rest.takeWhile (fun c => !isNetlocDelim c))
    · rw [if_pos hbr] at h
      exact Except.noConfusion h
    · rw [if_neg hbr] at h
      injection h with hok
      injection hok with h1 h2
      refine Or.inr ⟨?_, ?_, ?_, ?_⟩
      · rw [← h1, ← h2, List.takeWhile_append_dropWhile]
      · rw [← h1]
        rw [List.all_eq_true]
        intro x hx
        simpa using List.mem_takeWhile_imp hx
      · rw [← h2]
        cases hdwc : rest.dropWhile (fun c => !isNetlocDelim c) with
        | nil => exact Or.inl rfl
        | cons x t =>
          refine Or.inr ⟨x, t, rfl, ?_⟩
          have := dropWhile_head_false (fun c => !isNetlocDelim c) rest hdwc
          simpa using this
      · rw [← h1]
        exact hbr
  case _ =>
    injection h with hok
    injection hok with h1 h2
    exact Or.inl ⟨h1.symm, h2.symm⟩

/-! Membership and head preservation through the tail splits. -/

theorem splitFragment_subset {u a f : List Char} (h : splitFragment u = (a, f)) :
    (∀ x ∈ a, x ∈ u) ∧ (∀ x ∈ f, x ∈ u) := by
  rcases splitFragment_cases h with ⟨hdec, _⟩ | ⟨ha, hf, _⟩
  · rw [hdec]
    exact ⟨fun x hx => List.mem_append_left _ hx,
           fun x hx => List.mem_append_right _ (List.mem_cons_of_mem _ hx)⟩
  · rw [ha, hf]
    exact ⟨fun x hx => hx, fun x hx => absurd hx (List.not_mem_nil x)⟩

theorem splitQuery_subset {u a q : List Char} (h : splitQuery u = (a, q)) :
    (∀ x ∈ a, x ∈ u) ∧ (∀ x ∈ q, x ∈ u) := by
  rcases splitQuery_cases h with ⟨hdec, _⟩ | ⟨ha, hq, _⟩
  · rw [hdec]
    exact ⟨fun x hx => List.mem_append_left _ hx,
           fun x hx => List.mem_append_right _ (List.mem_cons_of_mem _ hx)⟩
  · rw [ha, hq]
    exact ⟨fun x hx => hx, fun x hx => absurd hx (List.not_mem_nil x)⟩

theorem splitParams_subset {u pa pr : List Char} (h : splitParams u = (pa, pr)) :
    (∀ x ∈ pa, x ∈ u) ∧ (∀ x ∈ pr, x ∈ u) := by
  rcases splitParams_cases h with ⟨hpa, hpr⟩ | hdec
  · rw [hpa, hpr]
    exact ⟨fun x hx => hx, fun x hx => absurd hx (List.not_mem_nil x)⟩
  · rw [hdec]
    exact ⟨fun x hx => List.mem_append_left _ hx,
           fun x hx => List.mem_append_right _ (List.mem_cons_of_mem _ hx)⟩

theorem splitFragment_fst_head {u a f : List Char} {x : Char} {t : List Char}
    (h : splitFragment u = (a, f)) (hu : u = x :: t) (hx : x ≠ '#') :
    ∃ t2, a = x :: t2 := by
  unfold splitFragment at h
  cases hsf : splitFirst '#' u with
  | none => rw [hsf] at h; injection h with h1 _; rw [← h1]; exact ⟨t, hu⟩
  | some pq =>
    obtain ⟨a', b'⟩ := pq
    rw [hsf] at h
    injection h with h1 _
    rw [← h1]
    exact splitFirst_fst_head hsf hu hx

theorem splitQuery_fst_head {u a q : List Char} {x : Char} {t : List Char}
    (h : splitQuery u = (a, q)) (hu : u = x :: t) (hx : x ≠ '?') :
    ∃ t2, a = x :: t2 := by
  unfold splitQuery at h
  cases hsf : splitFirst '?' u with
  | none => rw [hsf] at h; injection h with h1 _; rw [← h1]; exact ⟨t, hu⟩
  | some pq =>
    obtain ⟨a', b'⟩ := pq
    rw [hsf] at h
    injection h with h1 _
    rw [← h1]
    exact splitFirst_fst_head hsf hu hx

theorem map_asciiLowerChar_idem (l : List Char) :
    (l.map asciiLowerChar).map asciiLowerChar = l.map asciiLowerChar := by
  induction l with
  | nil => rfl
  | cons x xs ih => simp [asciiLowerChar_idem, ih]

/-! ## Invariants of parsed components and the parse/unparse round trip -/

/-- Invariants satisfied by every successful result of `pyUrlparse`; exactly
the facts needed to show that `pyUrlunparse` followed by `pyUrlparse`
reproduces the components. -/
structure WfComponents (p : UrlComponents) : Prop where
  scheme_spec : p.scheme = [] ∨
    (∃ c bs, p.scheme = c :: bs ∧ c.isAlpha = true) ∧
    p.scheme.all isSchemeChar = true ∧ p.scheme.map asciiLowerChar = p.scheme
  netloc_nodelim : ∀ x ∈ p.netloc, isNetlocDelim x = false
  netloc_brackets : ¬ (('[' ∈ p.netloc ∧ ']' ∉ p.netloc) ∨ (']' ∈ p.netloc ∧ '[' ∉ p.netloc))
  path_no_hash : '#' ∉ p.path
  path_no_query : '?' ∉ p.path
  params_no_hash : '#' ∉ p.params
  params_no_query : '?' ∉ p.params
  params_no_slash : '/' ∉ p.params
  query_no_hash : '#' ∉ p.query
  clean_scheme : ∀ x ∈ p.scheme, isUnsafeUrlByte x = false
  clean_netloc : ∀ x ∈ p.netloc, isUnsafeUrlByte x = false
  clean_path : ∀ x ∈ p.path, isUnsafeUrlByte x = false
  clean_params : ∀ x ∈ p.params, isUnsafeUrlByte x = false
  clean_query : ∀ x ∈ p.query, isUnsafeUrlByte x = false
  clean_fragment : ∀ x ∈ p.fragment, isUnsafeUrlByte x = false
  params_fix : p.scheme ∈ usesParams → splitParams (joinParams p.path p.params) = (p.path, p.params)
  params_nouses : p.scheme ∉ usesParams → p.params = []
  path_shape : p.netloc ≠ [] → (p.path = [] ∧ p.params = []) ∨ ∃ t, p.path = '/' :: t

theorem pyUrlparse_wf {u : List Char} {p : UrlComponents} (h : pyUrlparse u = .ok p) :
    WfComponents p := by
  unfold pyUrlparse at h
  dsimp only at h
  generalize hu0 : (u.dropWhile isC0OrSpace).filter (fun c => !isUnsafeUrlByte c) = u' at h
  have hclean : ∀ x ∈ u', isUnsafeUrlByte x = false := by
    intro x hx
    rw [← hu0] at hx
    have := List.of_mem_filter hx
    simpa using this
  rcases hps : parseScheme u' with ⟨s, r1⟩
  rw [hps] at h
  dsimp only at h
  cases hpn : parseNetloc r1 with
  | error e => rw [hpn] at h; exact Except.noConfusion h
  | ok pr =>
    obtain ⟨nl, r2⟩ := pr
    rw [hpn] at h
    dsimp only at h
    injection h with h'
    -- facts about the scheme split
    have hr1cl : ∀ x ∈ r1, isUnsafeUrlByte x = false := by
      rcases parseScheme_cases hps with ⟨_, hr⟩ | ⟨c, bs, hdec, _, _, _⟩
      · intro x hx; exact hclean x (by rw [hr] at hx; exact hx)
      · intro x hx
        exact hclean x (by
          rw [hdec]
          exact List.mem_append_right _ (List.mem_cons_of_mem _ hx))
    have hscl : ∀ x ∈ s, isUnsafeUrlByte x = false := by
      rcases parseScheme_cases hps with ⟨hs, _⟩ | ⟨c, bs, hdec, _, _, hmap⟩
      · rw [hs]; intro x hx; exact absurd hx (List.not_mem_nil x)
      · rw [hmap]
        intro x hx
        rw [List.mem_map] at hx
        obtain ⟨y, hy, hyx⟩ := hx
        rw [← hyx]
        exact asciiLowerChar_not_unsafe (hclean y (by
          rw [hdec]; exact List.mem_append_left _ hy))
    have hsspec : s = [] ∨
        (∃ c bs, s = c :: bs ∧ c.isAlpha = true) ∧
        s.all isSchemeChar = true ∧ s.map asciiLowerChar = s := by
      rcases parseScheme_cases hps with ⟨hs, _⟩ | ⟨c, bs, _, hal, hall, hmap⟩
      · exact Or.inl hs
      · refine Or.inr ⟨⟨asciiLowerChar c, bs.map asciiLowerChar, by rw [hmap]; rfl,
          asciiLowerChar_alpha hal⟩, ?_, by rw [hmap, map_asciiLowerChar_idem]⟩
        rw [hmap]
        rw [List.all_eq_true] at hall ⊢
        intro x hx
        rw [List.mem_map] at hx
        obtain ⟨y, hy, hyx⟩ := hx
        rw [← hyx]
        exact asciiLowerChar_schemeChar (hall y hy)
    -- facts about the netloc split
    have hnlsub : (∀ x ∈ nl, x ∈ r1) ∧ (∀ x ∈ r2, x ∈ r1) := by
      rcases parseNetloc_sound hpn with ⟨hnl, hr⟩ | ⟨hdec, _, _, _⟩
      · rw [hnl, hr]
        exact ⟨fun x hx => absurd hx (List.not_mem_nil x), fun x hx => hx⟩
      · rw [hdec]
        constructor
        · intro x hx
          exact List.mem_cons_of_mem _ (List.mem_cons_of_mem _ (List.mem_append_left _ hx))
        · intro x hx
          exact List.mem_cons_of_mem _ (List.mem_cons_of_mem _ (List.mem_append_right _ hx))
    have hnldelim : ∀ x ∈ nl, isNetlocDelim x = false := by
      rcases parseNetloc_sound hpn with ⟨hnl, _⟩ | ⟨_, hall, _, _⟩
      · rw [hnl]; intro x hx; exact absurd hx (List.not_mem_nil x)
      · rw [List.all_eq_true] at hall
        intro x hx
        have := hall x hx
        simpa using this
    have hnlbr : ¬ (('[' ∈ nl ∧ ']' ∉ nl) ∨ (']' ∈ nl ∧ '[' ∉ nl)) := by
      rcases parseNetloc_sound hpn with ⟨hnl, _⟩ | ⟨_, _, _, hbr⟩
      · rw [hnl]; simp
      · exact hbr
    have hr2head : r2 = [] ∨ ∃ x t, r2 = x :: t ∧ (nl = [] ∨ isNetlocDelim x = true) := by
      rcases parseNetloc_sound hpn with ⟨hnl, _⟩ | ⟨_, _, hhd, _⟩
      · cases hr2 : r2 with
        | nil => exact Or.inl rfl
        | cons x t => exact Or.inr ⟨x, t, rfl, Or.inl hnl⟩
      · rcases hhd with hhd | ⟨x, t, hxt, hdx⟩
        · exact Or.inl hhd
        · exact Or.inr ⟨x, t, hxt, Or.inr hdx⟩
    -- the tail splits
    rcases hfr : splitFragment r2 with ⟨a1, fr⟩
    rcases hqu : splitQuery a1 with ⟨a2, q⟩
    have hst : splitTail s r2 =
        ((if s ∈ usesParams then splitParams a2 else (a2, [])).1,
         (if s ∈ usesParams then splitParams a2 else (a2, [])).2, q, fr) := by
      unfold splitTail
      rw [hfr]
      dsimp only
      rw [hqu]
    rw [hst] at h'
    have ha1hash : '#' ∉ a1 := by
      rcases splitFragment_cases hfr with ⟨_, hna⟩ | ⟨ha, _, hnu⟩
      · exact hna
      · rw [ha]; exact hnu
    have ha2sub : (∀ x ∈ a2, x ∈ a1) ∧ (∀ x ∈ q, x ∈ a1) := splitQuery_subset hqu
    have ha2hash : '#' ∉ a2 := fun hx => ha1hash (ha2sub.1 _ hx)
    have ha2query : '?' ∉ a2 := by
      rcases splitQuery_cases hqu with ⟨_, hna⟩ | ⟨ha, _, hnu⟩
      · exact hna
      · rw [ha]; exact hnu
    have hqhash : '#' ∉ q := fun hx => ha1hash (ha2sub.2 _ hx)
    have ha1sub := splitFragment_subset hfr
    rcases hppv : (if s ∈ usesParams then splitParams a2 else (a2, [])) with ⟨pa, pr2⟩
    rw [hppv] at h'
    dsimp only at h'
    have hppsub : (∀ x ∈ pa, x ∈ a2) ∧ (∀ x ∈ pr2, x ∈ a2) := by
      by_cases hup : s ∈ usesParams
      · rw [if_pos hup] at hppv
        exact splitParams_subset hppv
      · rw [if_neg hup] at hppv
        injection hppv with h1 h2
        rw [← h1, ← h2]
        exact ⟨fun x hx => hx, fun x hx => absurd hx (List.not_mem_nil x)⟩
    have hppfix : s ∈ usesParams → splitParams (joinParams pa pr2) = (pa, pr2) := by
      intro hup
      rw [if_pos hup] at hppv
      exact splitParams_join_fix hppv
    have hppnouses : s ∉ usesParams → pr2 = [] := by
      intro hup
      rw [if_neg hup] at hppv
      injection hppv with _ h2
      exact h2.symm
    have hprslash : '/' ∉ pr2 := by
      by_cases hup : s ∈ usesParams
      · rw [if_pos hup] at hppv
        by_cases hsl : '/' ∈ a2
        · exact splitParams_no_slash hppv hsl
        · exact fun hx => hsl (hppsub.2 _ hx)
      · rw [hppnouses hup]; simp
    -- the path-shape fact, by chasing the head of r2 through the splits
    have hshape : nl ≠ [] → (pa = [] ∧ pr2 = []) ∨ ∃ t, pa = '/' :: t := by
      intro hnl
      have hppz : a2 = [] → pa = [] ∧ pr2 = [] := by
        intro ha2
        subst ha2
        by_cases hup : s ∈ usesParams
        · rw [if_pos hup, splitParams_of_not_mem (by simp)] at hppv
          injection hppv with h1 h2
          exact ⟨h1.symm, h2.symm⟩
        · rw [if_neg hup] at hppv
          injection hppv with h1 h2
          exact ⟨h1.symm, h2.symm⟩
      rcases hr2head with hr2 | ⟨x, t, hxt, hdx⟩
      · subst hr2
        have : a1 = [] := by
          have := @splitFragment_of_not_mem [] (by simp)
          rw [this] at hfr
          injection hfr with h1 _
          exact h1.symm
        subst this
        have : a2 = [] := by
          have := @splitQuery_of_not_mem [] (by simp)
          rw [this] at hqu
          injection hqu with h1 _
          exact h1.symm
        exact Or.inl (hppz this)
      · rcases hdx with hdx | hdx
        · exact absurd hdx hnl
        · have hx3 : x = '/' ∨ x = '?' ∨ x = '#' := by
            revert hdx
            unfold isNetlocDelim
            intro hdx
            rcases Bool.or_eq_true_iff.mp hdx with h1 | h1
            · rcases Bool.or_eq_true_iff.mp h1 with h2 | h2
              · exact Or.inl (by simpa using h2)
              · exact Or.inr (Or.inl (by simpa using h2))
            · exact Or.inr (Or.inr (by simpa using h1))
          rcases hx3 with hx3 | hx3 | hx3
          · -- r2 starts with '/', so the path starts with '/'
            subst hx3
            obtain ⟨t1, ha1⟩ := splitFragment_fst_head hfr hxt (by decide)
            obtain ⟨t2, ha2⟩ := splitQuery_fst_head hqu ha1 (by decide)
            refine Or.inr ?_
            by_cases hup : s ∈ usesParams
            · rw [if_pos hup] at hppv
              exact splitParams_fst_head hppv ha2 (by decide)
            · rw [if_neg hup] at hppv
              injection hppv with h1 _
              rw [← h1]
              exact ⟨t2, ha2⟩
          · -- r2 starts with '?': query split empties the pre-path
            subst hx3
            obtain ⟨t1, ha1⟩ := splitFragment_fst_head hfr hxt (by decide)
            have : a2 = [] := by
              unfold splitQuery at hqu
              rw [ha1] at hqu
              rw [show splitFirst '?' ('?' :: t1) = some ([], t1) from by
                simp [splitFirst]] at hqu
              injection hqu with h1 _
              exact h1.symm
            exact Or.inl (hppz this)
          · -- r2 starts with '#': fragment split empties everything
            subst hx3
            have : a1 = [] := by
              unfold splitFragment at hfr
              rw [hxt] at hfr
              rw [show splitFirst '#' ('#' :: t) = some ([], t) from by
                simp [splitFirst]] at hfr
              injection hfr with h1 _
              exact h1.symm
            subst this
            have : a2 = [] := by
              have := @splitQuery_of_not_mem [] (by simp)
              rw [this] at hqu
              injection hqu with h1 _
              exact h1.symm
            exact Or.inl (hppz this)
    -- assemble the structure
    subst h'
    refine ⟨hsspec, hnldelim, hnlbr, ?_, ?_, ?_, ?_, hprslash, hqhash,
            hscl, ?_, ?_, ?_, ?_, ?_, hppfix, hppnouses, hshape⟩
    · exact fun hx => ha2hash (hppsub.1 _ hx)
    · exact fun hx => ha2query (hppsub.1 _ hx)
    · exact fun hx => ha2hash (hppsub.2 _ hx)
    · exact fun hx => ha2query (hppsub.2 _ hx)
    · intro x hx
      exact hr1cl x (hnlsub.1 x hx)
    · intro x hx
      exact hr1cl x (hnlsub.2 x (ha1sub.1 x (ha2sub.1 x (hppsub.1 x hx))))
    · intro x hx
      exact hr1cl x (hnlsub.2 x (ha1sub.1 x (ha2sub.1 x (hppsub.2 x hx))))
    · intro x hx
      exact hr1cl x (hnlsub.2 x (ha1sub.1 x (ha2sub.2 x hx)))
    · intro x hx
      exact hr1cl x (hnlsub.2 x (ha1sub.2 x hx))

theorem dropWhile_C0_cons_append (c : Char) (bs X : List Char) (hal : c.isAlpha = true) :
    ((c :: bs) ++ X).dropWhile isC0OrSpace = (c :: bs) ++ X := by
  rw [List.cons_append, List.dropWhile_cons, if_neg (by rw [alpha_not_C0 hal]; simp)]

theorem pyUrlparse_compute_netloc (c : Char) (bs nl tail : List Char)
    (hal : c.isAlpha = true) (hall : (c :: bs).all isSchemeChar = true)
    (hnl : ∀ x ∈ nl, isNetlocDelim x = false)
    (hbr : ¬ (('[' ∈ nl ∧ ']' ∉ nl) ∨ (']' ∈ nl ∧ '[' ∉ nl)))
    (htl : tail = [] ∨ ∃ x t, tail = x :: t ∧ isNetlocDelim x = true)
    (hcl : ∀ x ∈ (c :: bs) ++ ':' :: '/' :: '/' :: (nl ++ tail), isUnsafeUrlByte x = false) :
    pyUrlparse ((c :: bs) ++ ':' :: '/' :: '/' :: (nl ++ tail)) =
      .ok ⟨(c :: bs).map asciiLowerChar, nl,
           (splitTail ((c :: bs).map asciiLowerChar) tail).1,
           (splitTail ((c :: bs).map asciiLowerChar) tail).2.1,
           (splitTail ((c :: bs).map asciiLowerChar) tail).2.2.1,
           (splitTail ((c :: bs).map asciiLowerChar) tail).2.2.2⟩ := by
  unfold pyUrlparse
  dsimp only
  rw [dropWhile_C0_cons_append c bs _ hal,
      List.filter_eq_self.mpr (fun a ha => by rw [hcl a ha]; rfl),
      parseScheme_compute c bs _ hal hall]
  dsimp only
  rw [parseNetloc_compute nl tail hnl htl hbr]

theorem pyUrlparse_compute_nonet (c : Char) (bs tail : List Char)
    (hal : c.isAlpha = true) (hall : (c :: bs).all isSchemeChar = true)
    (h2 : tail.take 2 ≠ ['/', '/'])
    (hcl : ∀ x ∈ (c :: bs) ++ ':' :: tail, isUnsafeUrlByte x = false) :
    pyUrlparse ((c :: bs) ++ ':' :: tail) =
      .ok ⟨(c :: bs).map asciiLowerChar, [],
           (splitTail ((c :: bs).map asciiLowerChar) tail).1,
           (splitTail ((c :: bs).map asciiLowerChar) tail).2.1,
           (splitTail ((c :: bs).map asciiLowerChar) tail).2.2.1,
           (splitTail ((c :: bs).map asciiLowerChar) tail).2.2.2⟩ := by
  unfold pyUrlparse
  dsimp only
  rw [dropWhile_C0_cons_append c bs _ hal,
      List.filter_eq_self.mpr (fun a ha => by rw [hcl a ha]; rfl),
      parseScheme_compute c bs _ hal hall]
  dsimp only
  rw [parseNetloc_not_double h2]

theorem joinParams_no_hash {path params : List Char}
    (hp : '#' ∉ path) (hpr : '#' ∉ params) : '#' ∉ joinParams path params := by
  unfold joinParams
  by_cases h : params = []
  · rw [if_pos h]; exact hp
  · rw [if_neg h]
    intro hm
    rcases List.mem_append.mp hm with hm | hm
    · exact hp hm
    · rcases List.mem_cons.mp hm with hm | hm
      · exact absurd hm (by decide)
      · exact hpr hm

theorem joinParams_no_query {path params : List Char}
    (hp : '?' ∉ path) (hpr : '?' ∉ params) : '?' ∉ joinParams path params := by
  unfold joinParams
  by_cases h : params = []
  · rw [if_pos h]; exact hp
  · rw [if_neg h]
    intro hm
    rcases List.mem_append.mp hm with hm | hm
    · exact hp hm
    · rcases List.mem_cons.mp hm with hm | hm
      · exact absurd hm (by decide)
      · exact hpr hm

theorem splitTail_assembled (s path params query fragment : List Char)
    (hph : '#' ∉ path) (hpq : '?' ∉ path) (hprh : '#' ∉ params) (hprq : '?' ∉ params)
    (hqh : '#' ∉ query)
    (hfix : s ∈ usesParams → splitParams (joinParams path params) = (path, params))
    (hnouses : s ∉ usesParams → params = []) :
    splitTail s (joinParams path params ++
      ((if query = [] then [] else '?' :: query) ++
       (if fragment = [] then [] else '#' :: fragment))) =
    (path, params, query, fragment) := by
  have hJh : '#' ∉ joinParams path params := joinParams_no_hash hph hprh
  have hJq : '?' ∉ joinParams path params := joinParams_no_query hpq hprq
  have hfr : splitFragment (joinParams path params ++
      ((if query = [] then [] else '?' :: query) ++
       (if fragment = [] then [] else '#' :: fragment))) =
      (joinParams path params ++ (if query = [] then [] else '?' :: query), fragment) := by
    by_cases hf : fragment = []
    · rw [if_pos hf, List.append_nil, hf]
      apply splitFragment_of_not_mem
      intro hm
      rcases List.mem_append.mp hm with hm | hm
      · exact hJh hm
      · by_cases hq : query = []
        · rw [if_pos hq] at hm; exact absurd hm (List.not_mem_nil _)
        · rw [if_neg hq] at hm
          rcases List.mem_cons.mp hm with hm | hm
          · exact absurd hm (by decide)
          · exact hqh hm
    · rw [if_neg hf, ← List.append_assoc]
      apply splitFragment_append
      intro hm
      rcases List.mem_append.mp hm with hm | hm
      · exact hJh hm
      · by_cases hq : query = []
        · rw [if_pos hq] at hm; exact absurd hm (List.not_mem_nil _)
        · rw [if_neg hq] at hm
          rcases List.mem_cons.mp hm with hm | hm
          · exact absurd hm (by decide)
          · exact hqh hm
  have hqu : splitQuery (joinParams path params ++
      (if query = [] then [] else '?' :: query)) = (joinParams path params, query) := by
    by_cases hq : query = []
    · rw [if_pos hq, List.append_nil, hq]
      exact splitQuery_of_not_mem hJq
    · rw [if_neg hq]
      exact splitQuery_append hJq
  unfold splitTail
  rw [hfr]
  dsimp only
  rw [hqu]
  dsimp only
  by_cases hup : s ∈ usesParams
  · rw [if_pos hup, hfix hup]
  · rw [if_neg hup]
    have hpr := hnouses hup
    subst hpr
    rw [show joinParams path [] = path from by unfold joinParams; rw [if_pos rfl]]

theorem joinParams_slash_head (t ppr : List Char) :
    ∃ T, joinParams ('/' :: t) ppr = '/' :: T ∧ (T = t ∨ T = t ++ ';' :: ppr) := by
  unfold joinParams
  by_cases h : ppr = []
  · rw [if_pos h]; exact ⟨t, rfl, Or.inl rfl⟩
  · rw [if_neg h]
    exact ⟨t ++ ';' :: ppr, by rw [List.cons_append], Or.inr rfl⟩

theorem optQF_head (pq pf : List Char) :
    ((if pq = [] then [] else '?' :: pq) ++ (if pf = [] then [] else '#' :: pf)) = [] ∨
    ∃ y ys, ((if pq = [] then [] else '?' :: pq) ++
      (if pf = [] then [] else '#' :: pf)) = y :: ys ∧ (y = '?' ∨ y = '#') := by
  by_cases hq : pq = []
  · rw [if_pos hq, List.nil_append]
    by_cases hf : pf = []
    · rw [if_pos hf]; exact Or.inl rfl
    · rw [if_neg hf]; exact Or.inr ⟨'#', pf, rfl, Or.inr rfl⟩
  · rw [if_neg hq, List.cons_append]
    exact Or.inr ⟨'?', _, rfl, Or.inl rfl⟩

theorem take2_slash_ne (t ppr rest : List Char) (ht : t.take 1 ≠ ['/'])
    (hrest : rest = [] ∨ ∃ y ys, rest = y :: ys ∧ (y = '?' ∨ y = '#')) :
    ((joinParams ('/' :: t) ppr) ++ rest).take 2 ≠ ['/', '/'] := by
  unfold joinParams
  by_cases hp : ppr = []
  · rw [if_pos hp]
    cases t with
    | nil =>
      rcases hrest with hr | ⟨y, ys, hr, hy⟩
      · subst hr; simp
      · subst hr
        rcases hy with hy | hy <;> subst hy <;> simp [List.take]
    | cons w t2 =>
      have hw : w ≠ '/' := fun hc => by rw [hc] at ht; exact ht rfl
      simp [List.take, hw]
  · rw [if_neg hp]
    cases t with
    | nil => simp [List.take]
    | cons w t2 =>
      have hw : w ≠ '/' := fun hc => by rw [hc] at ht; exact ht rfl
      simp [List.take, hw]

theorem clean_joinParams {pp ppr : List Char}
    (hcp : ∀ x ∈ pp, isUnsafeUrlByte x = false)
    (hcpr : ∀ x ∈ ppr, isUnsafeUrlByte x = false) :
    ∀ x ∈ joinParams pp ppr, isUnsafeUrlByte x = false := by
  unfold joinParams
  by_cases h : ppr = []
  · rw [if_pos h]; exact hcp
  · rw [if_neg h]
    intro x hx
    rcases List.mem_append.mp hx with hx | hx
    · exact hcp x hx
    · rcases List.mem_cons.mp hx with hx | hx
      · rw [hx]; rfl
      · exact hcpr x hx

theorem clean_optQF {pq pf : List Char}
    (hq : ∀ x ∈ pq, isUnsafeUrlByte x = false)
    (hf : ∀ x ∈ pf, isUnsafeUrlByte x = false) :
    ∀ x ∈ ((if pq = [] then [] else '?' :: pq) ++
      (if pf = [] then [] else '#' :: pf)), isUnsafeUrlByte x = false := by
  intro x hx
  rcases List.mem_append.mp hx with hx | hx
  · by_cases h : pq = []
    · rw [if_pos h] at hx; exact absurd hx (List.not_mem_nil x)
    · rw [if_neg h] at hx
      rcases List.mem_cons.mp hx with hx | hx
      · rw [hx]; rfl
      · exact hq x hx
  · by_cases h : pf = []
    · rw [if_pos h] at hx; exact absurd hx (List.not_mem_nil x)
    · rw [if_neg h] at hx
      rcases List.mem_cons.mp hx with hx | hx
      · rw [hx]; rfl
      · exact hf x hx

theorem append_optional_char (X q : List Char) (c0 : Char) :
    (if q ≠ [] then X ++ c0 :: q else X) = X ++ (if q = [] then [] else c0 :: q) := by
  by_cases h : q = []
  · simp [h]
  · simp [h]

/-- Round trip: re-parsing the string assembled by `pyUrlunparse` recovers
the components, provided they satisfy the parse invariants, the scheme is
nonempty, and (when there is no netloc) the path starts with a single `/`. -/
theorem pyUrlparse_unparse_roundtrip (p : UrlComponents) (wf : WfComponents p)
    (hs : p.scheme ≠ [])
    (hside : p.netloc ≠ [] ∨ ∃ t, p.path = '/' :: t ∧ t.take 1 ≠ ['/']) :
    pyUrlparse (pyUrlunparse p) = .ok p := by
  obtain ⟨ps, pn, pp, ppr, pq, pf⟩ := p
  obtain ⟨hsspec, hnld, hnlbr, hph, hpq2, hprh, hprq, hprs, hqh, hcs, hcn, hcp, hcpr,
    hcq, hcf, hfix, hnouses, hshape⟩ := wf
  dsimp only at *
  rcases hsspec with hnil | ⟨⟨c, bs, hsch, hal⟩, hall, hmap⟩
  · exact absurd hnil hs
  subst hsch
  have hclean_tail : ∀ x ∈ joinParams pp ppr ++
      ((if pq = [] then [] else '?' :: pq) ++ (if pf = [] then [] else '#' :: pf)),
      isUnsafeUrlByte x = false := by
    intro x hx
    rcases List.mem_append.mp hx with hx | hx
    · exact clean_joinParams hcp hcpr x hx
    · exact clean_optQF hcq hcf x hx
  have hclean_all : ∀ (nl2 : List Char), (∀ x ∈ nl2, isUnsafeUrlByte x = false) →
      ∀ x ∈ (c :: bs) ++ ':' :: '/' :: '/' :: (nl2 ++ (joinParams pp ppr ++
        ((if pq = [] then [] else '?' :: pq) ++ (if pf = [] then [] else '#' :: pf)))),
      isUnsafeUrlByte x = false := by
    intro nl2 hnl2 x hx
    rcases List.mem_append.mp hx with hx | hx
    · exact hcs x hx
    · rcases List.mem_cons.mp hx with hx | hx
      · rw [hx]; rfl
      · rcases List.mem_cons.mp hx with hx | hx
        · rw [hx]; rfl
        · rcases List.mem_cons.mp hx with hx | hx
          · rw [hx]; rfl
          · rcases List.mem_append.mp hx with hx | hx
            · exact hnl2 x hx
            · exact hclean_tail x hx
  have htail := splitTail_assembled ((c :: bs).map asciiLowerChar) pp ppr pq pf
    hph hpq2 hprh hprq hqh (by rw [hmap]; exact hfix) (by rw [hmap]; exact hnouses)
  unfold pyUrlunparse pyUrlunsplit
  dsimp only
  rw [if_pos (by simp : (c :: bs) ≠ [])]
  rw [append_optional_char _ pq '?']
  rw [append_optional_char _ pf '#']
  rw [List.append_assoc]
  by_cases hpn : pn = []
  case neg =>
    have hfixcond : ¬(joinParams pp ppr ≠ [] ∧ (joinParams pp ppr).take 1 ≠ ['/']) := by
      rcases hshape hpn with ⟨hpp, hppr⟩ | ⟨t, hppt⟩
      · rw [hpp, hppr]
        intro hcond
        exact hcond.1 (by unfold joinParams; rw [if_pos rfl])
      · obtain ⟨T, hJ, _⟩ := joinParams_slash_head t ppr
        rw [hppt]
        intro hcond
        exact hcond.2 (by rw [hJ]; rfl)
    have htl : (joinParams pp ppr ++
        ((if pq = [] then [] else '?' :: pq) ++ (if pf = [] then [] else '#' :: pf))) = [] ∨
        ∃ x t', (joinParams pp ppr ++
        ((if pq = [] then [] else '?' :: pq) ++ (if pf = [] then [] else '#' :: pf))) = x :: t' ∧
        isNetlocDelim x = true := by
      rcases hshape hpn with ⟨hpp, hppr⟩ | ⟨t, hppt⟩
      · rw [hpp, hppr, show joinParams [] [] = [] from rfl, List.nil_append]
        rcases optQF_head pq pf with h0 | ⟨y, ys, heq, hy⟩
        · exact Or.inl h0
        · refine Or.inr ⟨y, ys, heq, ?_⟩
          rcases hy with hy | hy <;> rw [hy] <;> rfl
      · obtain ⟨T, hJ, _⟩ := joinParams_slash_head t ppr
        rw [hppt, hJ, List.cons_append]
        exact Or.inr ⟨'/', _, rfl, by decide⟩
    rw [if_pos (Or.inl hpn), if_neg hfixcond]
    rw [show (c :: bs ++ ':' :: ('/' :: '/' :: pn ++ joinParams pp ppr)) ++
        ((if pq = [] then [] else '?' :: pq) ++ (if pf = [] then [] else '#' :: pf)) =
        (c :: bs) ++ ':' :: '/' :: '/' :: (pn ++ (joinParams pp ppr ++
        ((if pq = [] then [] else '?' :: pq) ++ (if pf = [] then [] else '#' :: pf))))
      from by simp]
    rw [pyUrlparse_compute_netloc c bs pn _ hal hall hnld hnlbr htl (hclean_all pn hcn)]
    rw [htail, hmap]
  case pos =>
    subst hpn
    rcases hside with hside | ⟨t, hppt, ht1⟩
    · exact absurd rfl hside
    subst hppt
    obtain ⟨T, hJ, _⟩ := joinParams_slash_head t ppr
    have hfixcond : ¬(joinParams ('/' :: t) ppr ≠ [] ∧
        (joinParams ('/' :: t) ppr).take 1 ≠ ['/']) := by
      intro hcond
      exact hcond.2 (by rw [hJ]; rfl)
    by_cases hnet : (c :: bs) ∈ usesNetloc
    · have ht2 : (joinParams ('/' :: t) ppr).take 2 ≠ ['/', '/'] := by
        have := take2_slash_ne t ppr [] ht1 (Or.inl rfl)
        rwa [List.append_nil] at this
      rw [if_pos (Or.inr ⟨hs, hnet, ht2⟩), if_neg hfixcond]
      rw [show (c :: bs ++ ':' :: ('/' :: '/' :: [] ++ joinParams ('/' :: t) ppr)) ++
          ((if pq = [] then [] else '?' :: pq) ++ (if pf = [] then [] else '#' :: pf)) =
          (c :: bs) ++ ':' :: '/' :: '/' :: (([] : List Char) ++ (joinParams ('/' :: t) ppr ++
          ((if pq = [] then [] else '?' :: pq) ++ (if pf = [] then [] else '#' :: pf))))
        from by simp]
      rw [pyUrlparse_compute_netloc c bs [] _ hal hall
        (fun x hx => absurd hx (List.not_mem_nil x)) (by simp)
        (Or.inr ⟨'/', _, by rw [hJ, List.cons_append], by decide⟩)
        (hclean_all [] (fun x hx => absurd hx (List.not_mem_nil x)))]
      rw [htail, hmap]
    · rw [if_neg (by
        intro hcond
        rcases hcond with hcond | hcond
        · exact hcond rfl
        · exact hnet hcond.2.1)]
      rw [show (c :: bs ++ ':' :: joinParams ('/' :: t) ppr) ++
          ((if pq = [] then [] else '?' :: pq) ++ (if pf = [] then [] else '#' :: pf)) =
          (c :: bs) ++ ':' :: (joinParams ('/' :: t) ppr ++
          ((if pq = [] then [] else '?' :: pq) ++ (if pf = [] then [] else '#' :: pf)))
        from by simp]
      rw [pyUrlparse_compute_nonet c bs _ hal hall
        (take2_slash_ne t ppr _ ht1 (optQF_head pq pf))
        (by
          intro x hx
          rcases List.mem_append.mp hx with hx | hx
          · exact hcs x hx
          · rcases List.mem_cons.mp hx with hx | hx
            · rw [hx]; rfl
            · exact hclean_tail x hx)]
      rw [htail, hmap]

/-! ## Facts about `prefixedUrl` and parses of `http`-prefixed strings -/

theorem prefixedUrl_of_http {u : List Char} (h : "http".toList.isPrefixOf u = true) :
    prefixedUrl u = u := by
  unfold prefixedUrl
  rw [if_neg (by rw [h]; decide)]

theorem prefixedUrl_startsHttp (u : List Char) :
    "http".toList.isPrefixOf (prefixedUrl u) = true := by
  unfold prefixedUrl
  by_cases h1 : ("http".toList.isPrefixOf u) = true
  · rw [if_neg (by rw [h1]; decide)]
    exact h1
  · have hb : ("http".toList.isPrefixOf u) = false := by
      cases hx : "http".toList.isPrefixOf u with
      | false => rfl
      | true => exact absurd hx h1
    rw [if_pos (by rw [hb]; decide)]
    by_cases h2 : strContains u "facebook.com".toList = true
    · rw [if_pos h2]
      rfl
    · rw [if_neg h2]
      rfl

theorem scheme_of_http {bef r v : List Char}
    (h : bef ++ ':' :: r = 'h' :: 't' :: 't' :: 'p' :: v) (hne : bef ≠ []) :
    ∃ v2, bef = 'h' :: 't' :: 't' :: 'p' :: v2 := by
  cases bef with
  | nil => exact absurd rfl hne
  | cons b1 bs1 =>
    rw [List.cons_append] at h
    injection h with h1 h
    subst h1
    cases bs1 with
    | nil =>
      rw [List.nil_append] at h
      injection h with h1 _
      exact absurd h1 (by decide)
    | cons b2 bs2 =>
      rw [List.cons_append] at h
      injection h with h1 h
      subst h1
      cases bs2 with
      | nil =>
        rw [List.nil_append] at h
        injection h with h1 _
        exact absurd h1 (by decide)
      | cons b3 bs3 =>
        rw [List.cons_append] at h
        injection h with h1 h
        subst h1
        cases bs3 with
        | nil =>
          rw [List.nil_append] at h
          injection h with h1 _
          exact absurd h1 (by decide)
        | cons b4 bs4 =>
          rw [List.cons_append] at h
          injection h with h1 h
          subst h1
          exact ⟨bs4, rfl⟩

theorem filter_unsafe_http (w : List Char) :
    ('h' :: 't' :: 't' :: 'p' :: w).filter (fun c => !isUnsafeUrlByte c) =
    'h' :: 't' :: 't' :: 'p' :: (w.filter (fun c => !isUnsafeUrlByte c)) := by
  rw [List.filter_cons_of_pos (by rfl), List.filter_cons_of_pos (by rfl),
      List.filter_cons_of_pos (by rfl), List.filter_cons_of_pos (by rfl)]

/-- When the (raw) input starts with `http`, either no scheme is recognised
— and then there is no netloc and the path starts with `h` — or the
recognised scheme itself starts with `http`. -/
theorem pyUrlparse_http {u : List Char} {p : UrlComponents}
    (h : pyUrlparse u = .ok p) (hu : "http".toList.isPrefixOf u = true) :
    (p.scheme = [] → p.netloc = [] ∧ ∃ t, p.path = 'h' :: t) ∧
    (p.scheme ≠ [] → ∃ v, p.scheme = 'h' :: 't' :: 't' :: 'p' :: v) := by
  obtain ⟨w, hw⟩ := List.isPrefixOf_iff_prefix.mp hu
  have hu4 : u = 'h' :: 't' :: 't' :: 'p' :: w := by rw [← hw]; rfl
  unfold pyUrlparse at h
  dsimp only at h
  rw [hu4] at h
  rw [List.dropWhile_cons, if_neg (by rw [alpha_not_C0 (by decide : ('h' : Char).isAlpha = true)]; simp),
      filter_unsafe_http] at h
  rcases hps : parseScheme ('h' :: 't' :: 't' :: 'p' :: (w.filter (fun c => !isUnsafeUrlByte c)))
    with ⟨s, r1⟩
  rw [hps] at h
  dsimp only at h
  cases hpn : parseNetloc r1 with
  | error e => rw [hpn] at h; exact Except.noConfusion h
  | ok pr =>
    obtain ⟨nl, r2⟩ := pr
    rw [hpn] at h
    dsimp only at h
    injection h with h'
    rcases parseScheme_cases hps with ⟨hs0, hr1⟩ | ⟨c, bs, hdec, _, _, hmap⟩
    · -- no scheme: r1 is the whole (filtered) string, starting with 'h'
      constructor
      · intro _
        have hnl2 : parseNetloc r1 = .ok ([], r1) := by
          rw [hr1]; exact parseNetloc_cons (by decide)
        rw [hpn] at hnl2
        injection hnl2 with hnl2
        injection hnl2 with hnl3 hnl4
        constructor
        · rw [← h']
          dsimp only
          exact hnl3
        · -- the path starts with 'h'
          rcases hfr : splitFragment r2 with ⟨a1, fr⟩
          rcases hqu : splitQuery a1 with ⟨a2, q⟩
          have hr2h : r2 = 'h' :: 't' :: 't' :: 'p' :: (w.filter (fun c => !isUnsafeUrlByte c)) := by
            rw [hnl4, hr1]
          obtain ⟨t1, ha1⟩ := splitFragment_fst_head hfr hr2h (by decide)
          obtain ⟨t2, ha2⟩ := splitQuery_fst_head hqu ha1 (by decide)
          have hst : splitTail s r2 =
              ((if s ∈ usesParams then splitParams a2 else (a2, [])).1,
               (if s ∈ usesParams then splitParams a2 else (a2, [])).2, q, fr) := by
            unfold splitTail
            rw [hfr]
            dsimp only
            rw [hqu]
          rw [← h']
          dsimp only
          rw [hst]
          dsimp only
          by_cases hup : s ∈ usesParams
          · rw [if_pos hup]
            rcases hpp : splitParams a2 with ⟨pa, pr2⟩
            obtain ⟨t3, hpa⟩ := splitParams_fst_head hpp ha2 (by decide)
            rw [hpa]
            exact ⟨t3, rfl⟩
          · rw [if_neg hup]
            exact ⟨t2, ha2⟩
      · intro hne
        rw [← h'] at hne
        dsimp only at hne
        exact absurd hs0 hne
    · constructor
      · intro hz
        rw [← h'] at hz
        dsimp only at hz
        rw [hz] at hmap
        exact absurd hmap.symm (by simp)
      · intro _
        obtain ⟨v2, hbef⟩ := scheme_of_http hdec.symm (by simp)
        rw [← h']
        dsimp only
        rw [hmap, hbef]
        exact ⟨v2.map asciiLowerChar, rfl⟩

/-! ## Support lemmas about `normalize_facebook_url`'s rewrites -/

theorem numericPathMatch_shape {l uid : List Char} (h : numericPathMatch l = some uid) :
    (∃ t, l = '/' :: t) ∧ uid.all Char.isDigit = true := by
  cases l with
  | nil => exact absurd h (by rw [show numericPathMatch [] = none from rfl]; simp)
  | cons x t =>
    unfold numericPathMatch at h
    dsimp only at h
    by_cases hx : x = '/'
    · subst hx
      rw [if_pos rfl] at h
      refine ⟨⟨t, rfl⟩, ?_⟩
      by_cases hc : (if t.getLast? = some '/' then t.dropLast else t) ≠ [] ∧
          (if t.getLast? = some '/' then t.dropLast else t).all Char.isDigit = true
      · rw [if_pos hc] at h
        injection h with h1
        rw [← h1]
        exact hc.2
      · rw [if_neg hc] at h
        exact Option.noConfusion h
    · rw [if_neg hx] at h
      exact Option.noConfusion h

theorem digit_not_unsafe {c : Char} (h : c.isDigit = true) :
    isUnsafeUrlByte c = false := by
  by_cases h1 : c = '\t'
  · rw [h1] at h; exact absurd h (by decide)
  · by_cases h2 : c = '\r'
    · rw [h2] at h; exact absurd h (by decide)
    · by_cases h3 : c = '\n'
      · rw [h3] at h; exact absurd h (by decide)
      · simp [isUnsafeUrlByte, beq_iff_eq, h1, h2, h3]

theorem digit_ne_hash {c : Char} (h : c.isDigit = true) : c ≠ '#' := by
  intro hc
  rw [hc] at h
  exact absurd h (by decide)

theorem splitParams_profile (pr : List Char) (hpr : '/' ∉ pr) :
    splitParams (joinParams "/profile.php".toList pr) = ("/profile.php".toList, pr) := by
  by_cases h : pr = []
  · subst h
    rw [show joinParams "/profile.php".toList [] = "/profile.php".toList from by
      unfold joinParams; rw [if_pos rfl]]
    exact splitParams_of_not_mem (by decide)
  · rw [show joinParams "/profile.php".toList pr =
        '/' :: ("profile.php".toList ++ ';' :: pr) from by
      unfold joinParams; rw [if_neg h]; rfl]
    unfold splitParams
    rw [if_pos (by
      exact List.mem_cons_of_mem _ (List.mem_append_right _ (List.mem_cons_self _ _)))]
    rw [if_pos (List.mem_cons_self _ _)]
    have hns : '/' ∉ "profile.php".toList ++ ';' :: pr := by
      intro hm
      rcases List.mem_append.mp hm with hm | hm
      · exact absurd hm (by decide)
      · rcases List.mem_cons.mp hm with hm | hm
        · exact absurd hm (by decide)
        · exact hpr hm
    have hsl := splitLast_append_cons '/' [] ("profile.php".toList ++ ';' :: pr) hns
    rw [List.nil_append] at hsl
    rw [hsl]
    dsimp only
    rw [splitFirst_append_cons ';' "profile.php".toList pr (by decide)]
    rfl

theorem isPrefixOf_http_cons (v : List Char) :
    "http".toList.isPrefixOf ('h' :: 't' :: 't' :: 'p' :: v) = true := by
  simp [List.isPrefixOf]

theorem unparse_starts_http (p2 : UrlComponents) {v : List Char}
    (hsch : p2.scheme = 'h' :: 't' :: 't' :: 'p' :: v) :
    "http".toList.isPrefixOf (pyUrlunparse p2) = true := by
  have hs9 : p2.scheme ≠ [] := by rw [hsch]; simp
  unfold pyUrlunparse pyUrlunsplit
  dsimp only
  simp only [if_pos hs9]
  split_ifs <;>
    (rw [hsch]; simp only [List.cons_append, List.append_assoc]; exact isPrefixOf_http_cons _)

/-- `WfComponents` survives replacing a nonempty netloc by
`www.facebook.com`. -/
theorem wf_set_netloc {p : UrlComponents} (wf : WfComponents p) (hold : p.netloc ≠ []) :
    WfComponents { p with netloc := "www.facebook.com".toList } := by
  obtain ⟨h1, h2, h3, h4, h5, h6, h7, h8, h9, h10, h11, h12, h13, h14, h15, h16, h17, h18⟩ := wf
  refine ⟨?_, ?_, ?_, ?_, ?_, ?_, ?_, ?_, ?_, ?_, ?_, ?_, ?_, ?_, ?_, ?_, ?_, ?_⟩ <;> dsimp only
  · exact h1
  · decide
  · decide
  · exact h4
  · exact h5
  · exact h6
  · exact h7
  · exact h8
  · exact h9
  · exact h10
  · decide
  · exact h12
  · exact h13
  · exact h14
  · exact h15
  · exact h16
  · exact h17
  · intro _
    exact h18 hold

/-- `WfComponents` survives the numeric-path rewrite of
`normalize_facebook_url`. -/
theorem wf_numeric {p : UrlComponents} (wf : WfComponents p) (netloc2 uid : List Char)
    (hn : netloc2 = "www.facebook.com".toList ∨ netloc2 = p.netloc)
    (huid : uid.all Char.isDigit = true) :
    WfComponents { p with
                   netloc := netloc2,
                   path := "/profile.php".toList,
                   query := "id=".toList ++ uid } := by
  obtain ⟨h1, h2, h3, h4, h5, h6, h7, h8, h9, h10, h11, h12, h13, h14, h15, h16, h17, h18⟩ := wf
  rw [List.all_eq_true] at huid
  refine ⟨?_, ?_, ?_, ?_, ?_, ?_, ?_, ?_, ?_, ?_, ?_, ?_, ?_, ?_, ?_, ?_, ?_, ?_⟩ <;> dsimp only
  · exact h1
  · rcases hn with hn | hn <;> rw [hn]
    · decide
    · exact h2
  · rcases hn with hn | hn <;> rw [hn]
    · decide
    · exact h3
  · decide
  · decide
  · exact h6
  · exact h7
  · exact h8
  · intro hm
    rcases List.mem_append.mp hm with hm | hm
    · exact absurd hm (by decide)
    · exact digit_ne_hash (huid _ hm) rfl
  · exact h10
  · rcases hn with hn | hn <;> rw [hn]
    · decide
    · exact h11
  · decide
  · exact h13
  · intro x hx
    rcases List.mem_append.mp hx with hx | hx
    · have hall9 : ∀ y ∈ "id=".toList, isUnsafeUrlByte y = false := by decide
      exact hall9 x hx
    · exact digit_not_unsafe (huid _ hx)
  · exact h15
  · intro _
    exact splitParams_profile p.params h8
  · exact h17
  · intro _
    refine Or.inr ⟨"profile.php".toList, ?_⟩
    rfl

/-- Unfolding of `normalize_facebook_url` once the parse result is known. -/
theorem normalize_eq_of_parse {u0 : List Char} {p : UrlComponents}
    (hp : pyUrlparse (prefixedUrl u0) = .ok p) :
    normalize_facebook_url u0 =
      (match numericPathMatch (if p.path = [] then ['/'] else p.path) with
       | some uid =>
         .ok (pyUrlunparse { p with
               netloc := if "facebook.com".toList.isSuffixOf p.netloc &&
                   !("www.".toList.isPrefixOf p.netloc) then
                   "www.facebook.com".toList else p.netloc,
               path := "/profile.php".toList,
               query := "id=".toList ++ uid })
       | none =>
         if (if "facebook.com".toList.isSuffixOf p.netloc &&
               !("www.".toList.isPrefixOf p.netloc) then
               "www.facebook.com".toList else p.netloc) ≠ p.netloc then
           .ok (pyUrlunparse { p with
                 netloc := if "facebook.com".toList.isSuffixOf p.netloc &&
                     !("www.".toList.isPrefixOf p.netloc) then
                     "www.facebook.com".toList else p.netloc })
         else .ok (prefixedUrl u0)) := by
  unfold normalize_facebook_url
  dsimp only
  rw [hp]

theorem normalize_eq_of_parse_error {u0 : List Char} {e : String}
    (hp : pyUrlparse (prefixedUrl u0) = .error e) :
    normalize_facebook_url u0 = .error e := by
  unfold normalize_facebook_url
  dsimp only
  rw [hp]

/-- When the second parse hits a netloc the rewrite leaves alone and a path
the numeric rewrite leaves alone, `normalize_facebook_url` returns its input
unchanged. -/
theorem normalize_fixpoint_aux {y : List Char} {p2 : UrlComponents}
    (hy : pyUrlparse (prefixedUrl y) = .ok p2) (hyy : prefixedUrl y = y)
    (hcond2 : ("facebook.com".toList.isSuffixOf p2.netloc &&
       !("www.".toList.isPrefixOf p2.netloc)) = false)
    (hnum2 : numericPathMatch (if p2.path = [] then ['/'] else p2.path) = none) :
    normalize_facebook_url y = .ok y := by
  rw [normalize_eq_of_parse hy, hnum2]
  dsimp only
  have hinner : (if "facebook.com".toList.isSuffixOf p2.netloc &&
      !("www.".toList.isPrefixOf p2.netloc) then
      "www.facebook.com".toList else p2.netloc) = p2.netloc := by
    rw [if_neg (by rw [hcond2]; decide)]
  rw [hinner, if_neg (fun hne => hne rfl), hyy]

/-- Idempotence of `normalize_facebook_url` on every input where it
returns. -/
theorem normalize_facebook_url_idem {u y : List Char}
    (h : normalize_facebook_url u = .ok y) :
    normalize_facebook_url y = .ok y := by
  cases hp : pyUrlparse (prefixedUrl u) with
  | error e =>
    rw [normalize_eq_of_parse_error hp] at h
    exact Except.noConfusion h
  | ok p =>
    rw [normalize_eq_of_parse hp] at h
    have wf := pyUrlparse_wf hp
    have hhttp := pyUrlparse_http hp (prefixedUrl_startsHttp u)
    cases hnum : numericPathMatch (if p.path = [] then ['/'] else p.path) with
    | some uid =>
      rw [hnum] at h
      dsimp only at h
      injection h with h'
      have hsne : p.scheme ≠ [] := by
        intro hz
        obtain ⟨hnl0, t1, hpath⟩ := hhttp.1 hz
        rw [hpath, if_neg (by simp : ¬('h' :: t1 = ([] : List Char)))] at hnum
        rw [show numericPathMatch ('h' :: t1) = none from by
          unfold numericPathMatch; dsimp only; rw [if_neg (by decide)]] at hnum
        exact Option.noConfusion hnum
      obtain ⟨v, hschv⟩ := hhttp.2 hsne
      have hdig : uid.all Char.isDigit = true := (numericPathMatch_shape hnum).2
      by_cases hcond : ("facebook.com".toList.isSuffixOf p.netloc &&
          !("www.".toList.isPrefixOf p.netloc)) = true
      · rw [if_pos hcond] at h'
        have wf2 := wf_numeric wf "www.facebook.com".toList uid (Or.inl rfl) hdig
        have hrt := pyUrlparse_unparse_roundtrip _ wf2 hsne
          (Or.inr ⟨"profile.php".toList, rfl, by decide⟩)
        rw [h'] at hrt
        have hstarts := unparse_starts_http { p with
          netloc := "www.facebook.com".toList, path := "/profile.php".toList,
          query := "id=".toList ++ uid } hschv
        rw [h'] at hstarts
        have hyy := prefixedUrl_of_http hstarts
        refine normalize_fixpoint_aux (by rw [hyy]; exact hrt) hyy ?_ ?_
        · dsimp only; decide
        · dsimp only; decide
      · rw [if_neg hcond] at h'
        have hcondf : ("facebook.com".toList.isSuffixOf p.netloc &&
            !("www.".toList.isPrefixOf p.netloc)) = false := by
          cases hb : ("facebook.com".toList.isSuffixOf p.netloc &&
              !("www.".toList.isPrefixOf p.netloc)) with
          | false => rfl
          | true => exact absurd hb hcond
        have wf2 := wf_numeric wf p.netloc uid (Or.inr rfl) hdig
        have hrt := pyUrlparse_unparse_roundtrip _ wf2 hsne
          (Or.inr ⟨"profile.php".toList, rfl, by decide⟩)
        rw [h'] at hrt
        have hstarts := unparse_starts_http { p with
          netloc := p.netloc, path := "/profile.php".toList,
          query := "id=".toList ++ uid } hschv
        rw [h'] at hstarts
        have hyy := prefixedUrl_of_http hstarts
        refine normalize_fixpoint_aux (by rw [hyy]; exact hrt) hyy ?_ ?_
        · exact hcondf
        · dsimp only; decide
    | none =>
      rw [hnum] at h
      dsimp only at h
      by_cases hcond : ("facebook.com".toList.isSuffixOf p.netloc &&
          !("www.".toList.isPrefixOf p.netloc)) = true
      · have hne : ¬ ("www.facebook.com".toList = p.netloc) := by
          intro he
          rw [← he] at hcond
          exact absurd hcond (by decide)
        rw [if_pos hcond] at h
        rw [if_pos hne] at h
        injection h with h'
        have hnl : p.netloc ≠ [] := by
          intro hz
          rw [hz] at hcond
          exact absurd hcond (by decide)
        have hsne : p.scheme ≠ [] := fun hz => hnl (hhttp.1 hz).1
        obtain ⟨v, hschv⟩ := hhttp.2 hsne
        have wf2 := wf_set_netloc wf hnl
        have hrt := pyUrlparse_unparse_roundtrip _ wf2 hsne
          (Or.inl (by exact (by decide : "www.facebook.com".toList ≠ [])))
        rw [h'] at hrt
        have hstarts := unparse_starts_http { p with
          netloc := "www.facebook.com".toList } hschv
        rw [h'] at hstarts
        have hyy := prefixedUrl_of_http hstarts
        refine normalize_fixpoint_aux (by rw [hyy]; exact hrt) hyy ?_ ?_
        · dsimp only; decide
        · exact hnum
      · rw [if_neg hcond] at h
        rw [if_neg (fun hne => hne rfl)] at h
        injection h with h'
        have hcondf : ("facebook.com".toList.isSuffixOf p.netloc &&
            !("www.".toList.isPrefixOf p.netloc)) = false := by
          cases hb : ("facebook.com".toList.isSuffixOf p.netloc &&
              !("www.".toList.isPrefixOf p.netloc)) with
          | false => rfl
          | true => exact absurd hb hcond
        have hyy : prefixedUrl y = y := by
          rw [← h']
          rw [prefixedUrl_of_http (prefixedUrl_startsHttp u)]
        refine normalize_fixpoint_aux ?_ hyy hcondf hnum
        rw [hyy, ← h']
        exact hp

/-! ## Netloc canonicalization (shared by the domain-rewrite claims) -/

/-- Whenever the parse of the prefixed input succeeds with a netloc that ends
in `facebook.com` and does not start with `www.`, `normalize_facebook_url`
returns a URL that parses back with netloc exactly `www.facebook.com`. -/
theorem normalize_rewrites_netloc {u : List Char} {p : UrlComponents}
    (hp : pyUrlparse (prefixedUrl u) = .ok p)
    (hsuf : "facebook.com".toList.isSuffixOf p.netloc = true)
    (hpre : "www.".toList.isPrefixOf p.netloc = false) :
    ∃ y q, normalize_facebook_url u = .ok y ∧ pyUrlparse y = .ok q ∧
      q.netloc = "www.facebook.com".toList := by
  have hcond : ("facebook.com".toList.isSuffixOf p.netloc &&
      !("www.".toList.isPrefixOf p.netloc)) = true := by
    rw [hsuf, hpre]; rfl
  have hnl : p.netloc ≠ [] := by
    intro hz
    rw [hz] at hsuf
    exact absurd hsuf (by decide)
  have hhttp := pyUrlparse_http hp (prefixedUrl_startsHttp u)
  have hsne : p.scheme ≠ [] := fun hz => hnl (hhttp.1 hz).1
  have wf := pyUrlparse_wf hp
  rw [normalize_eq_of_parse hp]
  cases hnum : numericPathMatch (if p.path = [] then ['/'] else p.path) with
  | some uid =>
    dsimp only
    rw [if_pos hcond]
    have hdig := (numericPathMatch_shape hnum).2
    have wf2 := wf_numeric wf "www.facebook.com".toList uid (Or.inl rfl) hdig
    have hrt := pyUrlparse_unparse_roundtrip _ wf2 hsne
      (Or.inr ⟨"profile.php".toList, rfl, by decide⟩)
    exact ⟨_, _, rfl, hrt, rfl⟩
  | none =>
    dsimp only
    rw [if_pos hcond]
    have hne : ¬("www.facebook.com".toList = p.netloc) := by
      intro he
      rw [← he] at hpre
      exact absurd hpre (by decide)
    rw [if_pos hne]
    have wf2 := wf_set_netloc wf hnl
    have hrt := pyUrlparse_unparse_roundtrip _ wf2 hsne
      (Or.inl (by dsimp only; decide))
    exact ⟨_, _, rfl, hrt, rfl⟩

/-! ## Claims about `normalize_facebook_url` -/

/-- C1 (counterexample to totality): on the input `http://[` the function
does not return a string: `urlparse` raises `ValueError("Invalid IPv6 URL")`
on an authority with an unmatched bracket, and `normalize_facebook_url` does
not catch it. -/
theorem C1_totality_counterexample :
    normalize_facebook_url "http://[".toList = .error "Invalid IPv6 URL" := by
  decide

/-- C1 (amended): `normalize_facebook_url` is not total — it propagates
`urlparse`'s `ValueError` on bracket-malformed authorities — but it is
idempotent on its domain of success: whenever it returns a string, running it
again on that string returns the same string. -/
theorem C1_normalize_idempotent_on_success {u y : List Char}
    (h : normalize_facebook_url u = .ok y) :
    normalize_facebook_url y = .ok y :=
  normalize_facebook_url_idem h

/-- Witness for C1: the numeric input `123` normalizes to the profile URL,
and normalizing that output again returns it unchanged. -/
theorem C1_normalize_idempotent_on_success_witness :
    normalize_facebook_url "123".toList =
        .ok "https://www.facebook.com/profile.php?id=123".toList ∧
      normalize_facebook_url
          "https://www.facebook.com/profile.php?id=123".toList =
        .ok "https://www.facebook.com/profile.php?id=123".toList :=
  ⟨by decide, C1_normalize_idempotent_on_success (u := "123".toList) (by decide)⟩

/-- C6: an address on the `facebook.com` domain whose host lacks the `www`
subdomain — whether given with a scheme or without (the scheme-less form is
covered because `prefixedUrl` roots it under `https://`) — normalizes to an
address whose host is exactly `www.facebook.com`. -/
theorem C6_domain_canonicalization {u : List Char} {p : UrlComponents}
    (hp : pyUrlparse (prefixedUrl u) = .ok p)
    (hnet : p.netloc = "facebook.com".toList) :
    ∃ y q, normalize_facebook_url u = .ok y ∧ pyUrlparse y = .ok q ∧
      q.netloc = "www.facebook.com".toList :=
  normalize_rewrites_netloc hp (by rw [hnet]; decide) (by rw [hnet]; decide)

/-- Witness for C6 at both example shapes: the scheme-less address
`facebook.com/p` and the schemeful address `https://facebook.com/p`. -/
theorem C6_domain_canonicalization_witness :
    (∃ y q, normalize_facebook_url "facebook.com/p".toList = .ok y ∧
        pyUrlparse y = .ok q ∧ q.netloc = "www.facebook.com".toList) ∧
      (∃ y q, normalize_facebook_url "https://facebook.com/p".toList = .ok y ∧
        pyUrlparse y = .ok q ∧ q.netloc = "www.facebook.com".toList) :=
  ⟨C6_domain_canonicalization (p :=
      ⟨"https".toList, "facebook.com".toList, "/p".toList, [], [], []⟩)
      (by decide) rfl,
   C6_domain_canonicalization (p :=
      ⟨"https".toList, "facebook.com".toList, "/p".toList, [], [], []⟩)
      (by decide) rfl⟩

/-- C7: the bare numeric input `123456789` normalizes to a URL whose path is
the profile-lookup path `/profile.php` and whose query is `id=123456789`. -/
theorem C7_numeric_profile_rewrite :
    normalize_facebook_url "123456789".toList =
        .ok "https://www.facebook.com/profile.php?id=123456789".toList ∧
      ∃ q, pyUrlparse
          "https://www.facebook.com/profile.php?id=123456789".toList = .ok q ∧
        q.path = "/profile.php".toList ∧ q.query = "id=123456789".toList :=
  ⟨by decide,
   ⟨⟨"https".toList, "www.facebook.com".toList, "/profile.php".toList,
      [], "id=123456789".toList, []⟩, by decide, rfl, rfl⟩⟩

/-- C10: for every absolute URL (one already starting with `http`, so the
prefixing stanza leaves it alone) whose parsed netloc ends with
`facebook.com` and does not start with `www.` — including unrelated hosts
such as `notfacebook.com` and subdomains such as `m.facebook.com` — the
output's host is exactly `www.facebook.com`. -/
theorem C10_endswith_netloc_rewrite {u : List Char} {p : UrlComponents}
    (hu : "http".toList.isPrefixOf u = true)
    (hp : pyUrlparse u = .ok p)
    (hsuf : "facebook.com".toList.isSuffixOf p.netloc = true)
    (hpre : "www.".toList.isPrefixOf p.netloc = false) :
    ∃ y q, normalize_facebook_url u = .ok y ∧ pyUrlparse y = .ok q ∧
      q.netloc = "www.facebook.com".toList :=
  normalize_rewrites_netloc (by rw [prefixedUrl_of_http hu]; exact hp)
    hsuf hpre

/-- Witness for C10 at the two hosts the claim singles out:
`http://notfacebook.com/a` and `http://m.facebook.com/a`. -/
theorem C10_endswith_netloc_rewrite_witness :
    (∃ y q, normalize_facebook_url "http://notfacebook.com/a".toList = .ok y ∧
        pyUrlparse y = .ok q ∧ q.netloc = "www.facebook.com".toList) ∧
      (∃ y q, normalize_facebook_url "http://m.facebook.com/a".toList = .ok y ∧
        pyUrlparse y = .ok q ∧ q.netloc = "www.facebook.com".toList) :=
  ⟨C10_endswith_netloc_rewrite (p :=
      ⟨"http".toList, "notfacebook.com".toList, "/a".toList, [], [], []⟩)
      (by decide) (by decide) (by decide) (by decide),
   C10_endswith_netloc_rewrite (p :=
      ⟨"http".toList, "m.facebook.com".toList, "/a".toList, [], [], []⟩)
      (by decide) (by decide) (by decide) (by decide)⟩

/-! ## An oracle for the effectful layer

The remaining functions of `app.py` talk to the outside world: the
filesystem, subprocesses, the Selenium driver.  Each external call is read
off a fixed environment `Env`, so a run of the embedded code is a pure
function of the environment; the observable trace (keys sent, drivers
created, `quit` calls) is returned alongside the result. -/

/-- Oracle for every external effect the embedded handlers perform.
`fsExists` is `os.path.exists`; `runVersion p` is the return code of
`subprocess.run([p, "--version"])`, `none` meaning the call raised;
`wdmInstall` is `ChromeDriverManager().install()` (`none`: raised or
unavailable); `launchService` / `launchPlain` say whether
`webdriver.Chrome` succeeds with / without an explicit `Service`;
`configOk` covers `set_page_load_timeout(25)` and `implicitly_wait(5)` in
`get_or_create_driver`; `setNavTimeoutOk` covers
`set_page_load_timeout(20)` in `navigate_and_interact`; `getOk` is whether
`driver.get` returns (a load timeout makes it raise); `sendOk i` is whether
the i-th `send_keys(...).perform()` returns; `readOk` covers
`driver.current_url` / `driver.title`, whose values are `currentUrl` and
`pageTitle`; `exnMsg` is `str(e)` for an unspecified raised exception;
`quitOk` is whether `driver.quit()` returns. -/
structure Env where
  fsExists : List Char → Bool
  runVersion : List Char → Option Int
  isWindows : Bool
  wdmAvailable : Bool
  wdmInstall : Option (List Char)
  launchService : Bool
  launchPlain : Bool
  configOk : Bool
  setNavTimeoutOk : Bool
  getOk : Bool
  sendOk : Nat → Bool
  readOk : Bool
  currentUrl : List Char
  pageTitle : List Char
  exnMsg : String
  quitOk : Bool

/-- Embedding of `download_with_webdriver_manager` (app.py lines 175–184):
`None` unless webdriver-manager is importable and its `install()` returns a
path; every exception is caught and collapsed to `None`. -/
def download_with_webdriver_manager (env : Env) : Option (List Char) :=
  if env.wdmAvailable then env.wdmInstall else none

/-- Embedding of `verify_chromedriver` (app.py lines 119–172).  In order:
the fixed path `/usr/bin/chromedriver` (existence plus a `--version` check,
a failing check falling through), the fixed path
`/usr/local/bin/chromedriver` (existence only), on Windows the relative
paths `chromedriver.exe` and `chromedriver` (existence only), the PATH
commands `chromedriver` and `chromedriver.exe` (`--version` check), the
webdriver-manager download (existence only), and finally `None`. -/
def verify_chromedriver (env : Env) : Option (List Char) :=
  if env.fsExists "/usr/bin/chromedriver".toList = true ∧
      env.runVersion "/usr/bin/chromedriver".toList = some 0 then
    some "/usr/bin/chromedriver".toList
  else if env.fsExists "/usr/local/bin/chromedriver".toList = true then
    some "/usr/local/bin/chromedriver".toList
  else if env.isWindows = true ∧ env.fsExists "chromedriver.exe".toList = true then
    some "chromedriver.exe".toList
  else if env.isWindows = true ∧ env.fsExists "chromedriver".toList = true then
    some "chromedriver".toList
  else if env.runVersion "chromedriver".toList = some 0 then
    some "chromedriver".toList
  else if env.runVersion "chromedriver.exe".toList = some 0 then
    some "chromedriver.exe".toList
  else
    match download_with_webdriver_manager env with
    | some dp => if dp ≠ [] ∧ env.fsExists dp = true then some dp else none
    | none => none

/-- A `webdriver.Chrome(options=...)` launch (Selenium Manager): the pair is
(driver if any, drivers created). -/
def plainLaunch (env : Env) : Option Unit × Nat :=
  if env.launchPlain then (some (), 1) else (none, 0)

/-- A `webdriver.Chrome(service=..., options=...)` launch whose failure
propagates to the caller. -/
def serviceLaunch (env : Env) : Option Unit × Nat :=
  if env.launchService then (some (), 1) else (none, 0)

/-- The driver-acquisition part of `get_or_create_driver` (app.py lines
190–214): with a verified chromedriver path, a `Service` launch (failure
propagating to the outer handler); otherwise the webdriver-manager route,
any failure inside it falling back to a plain Selenium-Manager launch. -/
def launchAttempt (env : Env) : Option Unit × Nat :=
  match verify_chromedriver env with
  | some _ => serviceLaunch env
  | none =>
    if env.wdmAvailable = true then
      match download_with_webdriver_manager env with
      | some dp =>
        if dp ≠ [] then
          if env.launchService = true then (some (), 1) else plainLaunch env
        else plainLaunch env
      | none => plainLaunch env
    else plainLaunch env

/-- Embedding of `get_or_create_driver` (app.py lines 186–224).  After a
successful launch the timeouts are set inside the same `try`: if that step
raises (`configOk = false`) the `except` returns `None` although a driver
was created — the created count is kept so the leak is observable. -/
def get_or_create_driver (env : Env) : Option Unit × Nat :=
  match launchAttempt env with
  | (some d, n) => if env.configOk = true then (some d, n) else (none, n)
  | (none, n) => (none, n)

/-- The keys the interaction phase sends. -/
inductive Key where
  | escape
  | tab
  | enter
deriving DecidableEq

/-- The fixed key sequence of app.py lines 296–309: one Escape, seven Tabs,
one Enter. -/
def keyPlan : List Key :=
  Key.escape :: (List.replicate 7 Key.tab ++ [Key.enter])

/-- Runs an indexed key plan against the oracle: each
`send_keys(...).perform()` either returns (the key is recorded) or raises,
aborting the remainder; the flag says whether the whole plan ran. -/
def runKeysAux (env : Env) : List (Nat × Key) → List Key × Bool
  | [] => ([], true)
  | (i, k) :: rest =>
    if env.sendOk i = true then
      let r := runKeysAux env rest
      (k :: r.1, r.2)
    else ([], false)

/-- Observable outcome of one `navigate_and_interact` call: the result
triple `(initial_url, final_url, page_title)` on success, the `error`
string otherwise, plus the trace — keys actually sent, drivers created,
`driver.quit()` calls, and whether the `driver.get` step raised. -/
structure NavOutcome where
  result : Option (List Char × List Char × List Char)
  errorMsg : Option String
  sentKeys : List Key
  created : Nat
  quitCalls : Nat
  loadFailed : Bool
deriving DecidableEq

/-- Embedding of `navigate_and_interact` (app.py lines 260–346).  A `None`
driver returns the literal error `Failed to initialize browser` with no
`quit` (the `finally` guards on `if driver`); afterwards any raise inside
the `try` — from `normalize_facebook_url`, `set_page_load_timeout(20)`, a
key send or the final reads — yields an error result, with the `finally`
calling `quit` exactly once either way.  The bare `except: pass` around
`driver.get` swallows a load failure unconditionally: the code after it
does not branch on it, so the model only records it. -/
def navigate_and_interact (env : Env) (u : List Char) : NavOutcome :=
  match get_or_create_driver env with
  | (none, n) =>
    { result := none, errorMsg := some "Failed to initialize browser",
      sentKeys := [], created := n, quitCalls := 0, loadFailed := false }
  | (some _, n) =>
    match normalize_facebook_url u with
    | .error e =>
      { result := none, errorMsg := some e, sentKeys := [], created := n,
        quitCalls := 1, loadFailed := false }
    | .ok nu =>
      if env.setNavTimeoutOk = true then
        let lf := !env.getOk
        match runKeysAux env keyPlan.enum with
        | (ks, true) =>
          if env.readOk = true then
            { result := some (nu, env.currentUrl, env.pageTitle),
              errorMsg := none, sentKeys := ks, created := n,
              quitCalls := 1, loadFailed := lf }
          else
            { result := none, errorMsg := some env.exnMsg, sentKeys := ks,
              created := n, quitCalls := 1, loadFailed := lf }
        | (ks, false) =>
          { result := none, errorMsg := some env.exnMsg, sentKeys := ks,
            created := n, quitCalls := 1, loadFailed := lf }
      else
        { result := none, errorMsg := some env.exnMsg, sentKeys := [],
          created := n, quitCalls := 1, loadFailed := false }

/-- Lookup in a string-valued JSON object, as Python's `data['url']` /
`'url' in data` on a dict whose values are strings. -/
def jsonLookup (d : List (List Char × List Char)) (k : List Char) :
    Option (List Char) :=
  match d.find? (fun kv => decide (kv.1 = k)) with
  | some kv => some kv.2
  | none => none

def urlKey : List Char := "url".toList

/-- Observable outcome of the `POST /navigate` handler: HTTP status, the
`error` field of the JSON body if present, the inner navigation outcome if
one was run, and how many times the driver locator and the browser
launcher were entered. -/
structure HandlerOutcome where
  status : Nat
  errorMsg : Option String
  nav : Option NavOutcome
  verifyCalls : Nat
  getOrCreateCalls : Nat

/-- Embedding of the `navigate` route handler (app.py lines 514–546),
restricted to string-valued JSON bodies (`data = none` is a missing or
non-JSON body).  `if not data or 'url' not in data` — an absent body, the
empty dict, or a body without `url` — returns 400 before anything touches
the browser stack; otherwise `navigate_and_interact` runs (entering
`get_or_create_driver`, which enters `verify_chromedriver`), its error
mapping to a 500 and its result to a 200. -/
def navigate_handler (env : Env)
    (data : Option (List (List Char × List Char))) : HandlerOutcome :=
  let missing : Bool :=
    match data with
    | none => true
    | some d => d.isEmpty || (jsonLookup d urlKey).isNone
  if missing = true then
    { status := 400, errorMsg := some "URL is required", nav := none,
      verifyCalls := 0, getOrCreateCalls := 0 }
  else
    match data.bind (fun d => jsonLookup d urlKey) with
    | some u =>
      let out := navigate_and_interact env u
      match out.errorMsg with
      | some e =>
        { status := 500, errorMsg := some e, nav := some out,
          verifyCalls := 1, getOrCreateCalls := 1 }
      | none =>
        { status := 200, errorMsg := none, nav := some out,
          verifyCalls := 1, getOrCreateCalls := 1 }
    | none =>
      { status := 400, errorMsg := some "URL is required", nav := none,
        verifyCalls := 0, getOrCreateCalls := 0 }

/-- The module-level mutable state of app.py: the pooled driver variable
(line 33, initially `None`). -/
structure ServerState where
  driver_instance : Option Unit

def initState : ServerState := { driver_instance := none }

/-- One incoming request to a handler that can touch the driver state. -/
inductive Request where
  | navigate (data : Option (List (List Char × List Char)))
  | visit (username : List Char)
  | shutdown

/-- An HTTP reply: status code and, for `/shutdown`, the JSON `status`
message. -/
structure HttpReply where
  status : Nat
  body : List Char

/-- One request against the server state.  `navigate` and `visit` (app.py
lines 514–591) never name `driver_instance`; `shutdown` (lines 593–606)
quits and clears it when set — returning 500 and leaving it in place if
`quit` raises — and otherwise reports that there is no instance. -/
def handle (env : Env) (st : ServerState) : Request → ServerState × HttpReply
  | .navigate data =>
    (st, { status := (navigate_handler env data).status, body := [] })
  | .visit username =>
    let url := if username.map asciiLowerChar = "marketplace".toList then
      "facebook.com/marketplace".toList else username
    let out := navigate_and_interact env url
    (st, { status := if out.errorMsg.isSome then 500 else 200, body := [] })
  | .shutdown =>
    match st.driver_instance with
    | some _ =>
      if env.quitOk = true then
        ({ driver_instance := none },
         { status := 200, body := "Browser instance closed".toList })
      else (st, { status := 500, body := [] })
    | none =>
      (st, { status := 200, body := "No browser instance to close".toList })

/-- A whole request sequence, threading the server state. -/
def runRequests (env : Env) (st : ServerState) : List Request → ServerState
  | [] => st
  | r :: rs => runRequests env (handle env st r).1 rs

/-! ## Concrete environments -/

/-- An environment where every probe, launch and interaction succeeds: the
primary chromedriver path exists and answers its version query. -/
def happyEnv : Env :=
  { fsExists := fun s => decide (s = "/usr/bin/chromedriver".toList),
    runVersion := fun s =>
      if s = "/usr/bin/chromedriver".toList then some 0 else none,
    isWindows := false, wdmAvailable := false, wdmInstall := none,
    launchService := true, launchPlain := false, configOk := true,
    setNavTimeoutOk := true, getOk := true, sendOk := fun _ => true,
    readOk := true, currentUrl := "https://www.facebook.com/ok".toList,
    pageTitle := "Facebook".toList, exnMsg := "boom", quitOk := true }

/-- As `happyEnv`, but setting the timeouts inside `get_or_create_driver`
raises. -/
def leakEnv : Env := { happyEnv with configOk := false }

/-- As `happyEnv`, but `driver.get` raises (a page-load timeout). -/
def timeoutEnv : Env := { happyEnv with getOk := false }

/-- As `happyEnv`, but launching Chrome fails. -/
def launchFailEnv : Env := { happyEnv with launchService := false }

/-- Only `/usr/local/bin/chromedriver` exists, and every version query
raises. -/
def brokenAltEnv : Env :=
  { happyEnv with
    fsExists := fun s => decide (s = "/usr/local/bin/chromedriver".toList),
    runVersion := fun _ => none }

/-- Both fixed chromedriver paths exist, and every version query raises. -/
def brokenPrimaryEnv : Env :=
  { happyEnv with
    fsExists := fun s => decide (s = "/usr/bin/chromedriver".toList ∨
      s = "/usr/local/bin/chromedriver".toList),
    runVersion := fun _ => none }

/-- Nothing exists and every version query raises. -/
def bareEnv : Env :=
  { happyEnv with fsExists := fun _ => false, runVersion := fun _ => none }

/-! ## Trace lemmas for the oracle model -/

theorem keyPlan_enum_snd : keyPlan.enum.map Prod.snd = keyPlan := by decide

theorem runKeysAux_planned (env : Env) (l : List (Nat × Key)) :
    (runKeysAux env l).1 <+: l.map Prod.snd := by
  induction l with
  | nil => exact List.nil_prefix
  | cons hd tl ih =>
    rcases hd with ⟨i, k⟩
    unfold runKeysAux
    split
    · dsimp only
      obtain ⟨t, ht⟩ := ih
      exact ⟨t, by rw [List.cons_append, ht]; rfl⟩
    · exact List.nil_prefix

theorem runKeysAux_all (env : Env) (l : List (Nat × Key))
    (h : ∀ i k, (i, k) ∈ l → env.sendOk i = true) :
    runKeysAux env l = (l.map Prod.snd, true) := by
  induction l with
  | nil => rfl
  | cons hd tl ih =>
    rcases hd with ⟨i, k⟩
    unfold runKeysAux
    rw [if_pos (h i k (List.mem_cons_self _ _))]
    dsimp only
    rw [ih (fun j k' hm => h j k' (List.mem_cons_of_mem _ hm))]
    rfl

theorem launchAttempt_cases (env : Env) :
    launchAttempt env = (some (), 1) ∨ launchAttempt env = (none, 0) := by
  have hp : plainLaunch env = (some (), 1) ∨ plainLaunch env = (none, 0) := by
    unfold plainLaunch
    split
    · left; rfl
    · right; rfl
  have hs : serviceLaunch env = (some (), 1) ∨
      serviceLaunch env = (none, 0) := by
    unfold serviceLaunch
    split
    · left; rfl
    · right; rfl
  unfold launchAttempt
  rcases verify_chromedriver env with _ | p
  · dsimp only
    split
    · rcases download_with_webdriver_manager env with _ | dp
      · exact hp
      · dsimp only
        split
        · split
          · left; rfl
          · exact hp
        · exact hp
    · exact hp
  · exact hs

theorem get_or_create_cases (env : Env) :
    (launchAttempt env = (some (), 1) ∧ env.configOk = true ∧
        get_or_create_driver env = (some (), 1)) ∨
      (launchAttempt env = (some (), 1) ∧ env.configOk = false ∧
        get_or_create_driver env = (none, 1)) ∨
      (launchAttempt env = (none, 0) ∧
        get_or_create_driver env = (none, 0)) := by
  unfold get_or_create_driver
  rcases launchAttempt_cases env with h | h <;> rw [h]
  · dsimp only
    cases hc : env.configOk
    · right; left
      exact ⟨rfl, rfl, by rw [if_neg (by decide)]⟩
    · left
      exact ⟨rfl, rfl, by rw [if_pos rfl]⟩
  · right; right
    exact ⟨rfl, rfl⟩

theorem navigate_trace (env : Env) (u : List Char) :
    (navigate_and_interact env u).created = (get_or_create_driver env).2 ∧
      (navigate_and_interact env u).quitCalls =
        (if (get_or_create_driver env).1.isSome = true then 1 else 0) := by
  unfold navigate_and_interact
  rcases get_or_create_driver env with ⟨d, n⟩
  cases d <;> dsimp only
  · exact ⟨rfl, by decide⟩
  · rcases normalize_facebook_url u with e | nu <;> dsimp only
    · exact ⟨rfl, rfl⟩
    · split
      · rcases runKeysAux env keyPlan.enum with ⟨ks, ok⟩
        cases ok <;> dsimp only
        · exact ⟨rfl, rfl⟩
        · split
          · exact ⟨rfl, rfl⟩
          · exact ⟨rfl, rfl⟩
      · exact ⟨rfl, rfl⟩

theorem navigate_phase (env : Env) (u nu : List Char)
    (hd : (get_or_create_driver env).1 = some ())
    (hn : normalize_facebook_url u = .ok nu)
    (ht : env.setNavTimeoutOk = true)
    (hs : ∀ i, env.sendOk i = true) :
    (navigate_and_interact env u).sentKeys = keyPlan ∧
      (navigate_and_interact env u).loadFailed = (!env.getOk) ∧
      (env.readOk = true →
        (navigate_and_interact env u).result =
            some (nu, env.currentUrl, env.pageTitle) ∧
          (navigate_and_interact env u).errorMsg = none) := by
  unfold navigate_and_interact
  rcases hg : get_or_create_driver env with ⟨d, n⟩
  rw [hg] at hd
  dsimp only at hd
  subst hd
  dsimp only
  rw [hn]
  dsimp only
  rw [if_pos ht, runKeysAux_all env keyPlan.enum (fun i k _ => hs i)]
  dsimp only
  rw [keyPlan_enum_snd]
  refine ⟨?_, ?_, ?_⟩
  · split
    · rfl
    · rfl
  · split
    · rfl
    · rfl
  · intro hr
    rw [if_pos hr]
    exact ⟨rfl, rfl⟩

theorem navigate_fail (env : Env) (u : List Char)
    (hd : (get_or_create_driver env).1 = none) :
    (navigate_and_interact env u).result = none ∧
      (navigate_and_interact env u).errorMsg =
        some "Failed to initialize browser" ∧
      (navigate_and_interact env u).sentKeys = [] ∧
      (navigate_and_interact env u).quitCalls = 0 := by
  unfold navigate_and_interact
  rcases hg : get_or_create_driver env with ⟨d, n⟩
  rw [hg] at hd
  dsimp only at hd
  subst hd
  exact ⟨rfl, rfl, rfl, rfl⟩

theorem navigate_keys_planned (env : Env) (u : List Char) :
    (navigate_and_interact env u).sentKeys <+: keyPlan := by
  unfold navigate_and_interact
  rcases get_or_create_driver env with ⟨d, n⟩
  cases d <;> dsimp only
  · exact List.nil_prefix
  · rcases normalize_facebook_url u with e | nu <;> dsimp only
    · exact List.nil_prefix
    · split
      · rcases hks : runKeysAux env keyPlan.enum with ⟨ks, ok⟩
        have hpre := runKeysAux_planned env keyPlan.enum
        rw [hks, keyPlan_enum_snd] at hpre
        dsimp only at hpre
        cases ok <;> dsimp only
        · exact hpre
        · split
          · exact hpre
          · exact hpre
      · exact List.nil_prefix

theorem handle_preserves_none (env : Env) (st : ServerState) (r : Request)
    (h : st.driver_instance = none) :
    ((handle env st r).1).driver_instance = none := by
  cases r with
  | navigate data => exact h
  | visit username => exact h
  | shutdown =>
    rcases st with ⟨d⟩
    dsimp only at h
    subst h
    rfl

theorem runRequests_none (env : Env) (rs : List Request) :
    ∀ st : ServerState, st.driver_instance = none →
      (runRequests env st rs).driver_instance = none := by
  induction rs with
  | nil => exact fun st h => h
  | cons r rs ih =>
    exact fun st h => ih _ (handle_preserves_none env st r h)

/-! ## Claims about the effectful layer -/

/-- C2: whatever the environment does, the keys sent are a prefix of the
fixed plan — no other keys and no retries — and any call that reaches the
interaction phase (a driver was handed back, the URL normalized, the
navigation timeout was set) with every send succeeding sends exactly one
Escape, then seven Tabs, then one Enter, in that order. -/
theorem C2_key_sequence (env : Env) (u : List Char) :
    (navigate_and_interact env u).sentKeys <+:
        Key.escape :: (List.replicate 7 Key.tab ++ [Key.enter]) ∧
      ((get_or_create_driver env).1 = some () →
        (∃ nu, normalize_facebook_url u = .ok nu) →
        env.setNavTimeoutOk = true →
        (∀ i, env.sendOk i = true) →
        (navigate_and_interact env u).sentKeys =
          Key.escape :: (List.replicate 7 Key.tab ++ [Key.enter])) := by
  refine ⟨navigate_keys_planned env u, ?_⟩
  rintro hd ⟨nu, hn⟩ ht hs
  exact (navigate_phase env u nu hd hn ht hs).1

/-- Witness for C2: in the all-success environment the full sequence is
sent on the numeric input `123`. -/
theorem C2_key_sequence_witness :
    (navigate_and_interact happyEnv "123".toList).sentKeys =
      Key.escape :: (List.replicate 7 Key.tab ++ [Key.enter]) :=
  (C2_key_sequence happyEnv "123".toList).2 (by decide)
    ⟨"https://www.facebook.com/profile.php?id=123".toList, by decide⟩
    rfl (fun i => rfl)

/-- C3 (counterexample to the release invariant): when Chrome launches but
setting the timeouts inside `get_or_create_driver` raises, the call returns
`None`, so `navigate_and_interact`'s `finally` (guarded by `if driver`) has
nothing to quit: a session was created and `quit` is never called. -/
theorem C3_session_leak_counterexample :
    (navigate_and_interact leakEnv "123".toList).created = 1 ∧
      (navigate_and_interact leakEnv "123".toList).quitCalls = 0 :=
  ⟨by decide, by decide⟩

/-- C3 (amended): a session handed back by `get_or_create_driver` is quit
exactly once, whatever happens later in the call; but when
`get_or_create_driver` returns `None`, no quit happens, and a driver was
nevertheless created exactly when the launch succeeded and the
timeout-setting step failed. -/
theorem C3_session_release_amended (env : Env) (u : List Char) :
    ((get_or_create_driver env).1 = some () →
        (navigate_and_interact env u).created = 1 ∧
          (navigate_and_interact env u).quitCalls = 1) ∧
      ((get_or_create_driver env).1 = none →
        (navigate_and_interact env u).quitCalls = 0 ∧
          ((navigate_and_interact env u).created = 1 ↔
            launchAttempt env = (some (), 1) ∧ env.configOk = false)) := by
  obtain ⟨hcr, hq⟩ := navigate_trace env u
  rcases get_or_create_cases env with ⟨hl, hc, hg⟩ | ⟨hl, hc, hg⟩ | ⟨hl, hg⟩
  · refine ⟨fun _ => ⟨?_, ?_⟩, fun hnone => ?_⟩
    · rw [hcr, hg]
    · rw [hq, hg]
      rfl
    · rw [hg] at hnone
      dsimp only at hnone
      exact Option.noConfusion hnone
  · refine ⟨fun hsome => ?_, fun _ => ⟨?_, ?_, ?_⟩⟩
    · rw [hg] at hsome
      dsimp only at hsome
      exact Option.noConfusion hsome
    · rw [hq, hg]
      rfl
    · exact fun _ => ⟨hl, hc⟩
    · intro _
      rw [hcr, hg]
  · refine ⟨fun hsome => ?_, fun _ => ⟨?_, ?_, ?_⟩⟩
    · rw [hg] at hsome
      dsimp only at hsome
      exact Option.noConfusion hsome
    · rw [hq, hg]
      rfl
    · intro hone
      rw [hcr, hg] at hone
      exact absurd hone (by decide)
    · rintro ⟨hl', _⟩
      rw [hl] at hl'
      exact absurd hl' (by decide)

/-- Witness for C3's amended statement: in the all-success environment one
session is created and quit exactly once. -/
theorem C3_session_release_amended_witness :
    (navigate_and_interact happyEnv "9".toList).created = 1 ∧
      (navigate_and_interact happyEnv "9".toList).quitCalls = 1 :=
  (C3_session_release_amended happyEnv "9".toList).1 (by decide)

/-- C4: a `POST /navigate` whose body lacks a `url` field (no body, `{}`,
or any object without the key) returns 400 with error `URL is required`,
and neither the driver locator nor the browser launcher is entered. -/
theorem C4_missing_url_rejected (env : Env)
    (data : Option (List (List Char × List Char)))
    (h : data.bind (fun d => jsonLookup d urlKey) = none) :
    (navigate_handler env data).status = 400 ∧
      (navigate_handler env data).errorMsg = some "URL is required" ∧
      (navigate_handler env data).verifyCalls = 0 ∧
      (navigate_handler env data).getOrCreateCalls = 0 := by
  unfold navigate_handler
  cases data with
  | none => exact ⟨rfl, rfl, rfl, rfl⟩
  | some d =>
    rw [Option.some_bind] at h
    dsimp only
    rw [h, if_pos (by simp)]
    exact ⟨rfl, rfl, rfl, rfl⟩

/-- Witness for C4 at the empty JSON body `{}`. -/
theorem C4_missing_url_rejected_witness :
    (navigate_handler happyEnv (some [])).status = 400 ∧
      (navigate_handler happyEnv (some [])).errorMsg =
        some "URL is required" ∧
      (navigate_handler happyEnv (some [])).verifyCalls = 0 ∧
      (navigate_handler happyEnv (some [])).getOrCreateCalls = 0 :=
  C4_missing_url_rejected happyEnv (some []) rfl

/-- C5 (counterexample to the verification policy): an environment whose
only chromedriver is at the alternative fixed path, with every version
query raising, is still accepted — `/usr/local/bin/chromedriver` is
returned on existence alone, never version-checked. -/
theorem C5_unverified_accept_counterexample :
    verify_chromedriver brokenAltEnv =
        some "/usr/local/bin/chromedriver".toList ∧
      brokenAltEnv.runVersion "/usr/local/bin/chromedriver".toList = none :=
  ⟨by decide, rfl⟩

/-- C5 (amended): the locator probes fixed paths, then PATH, then the
managed download, and returns `None` when everything fails; but only the
primary fixed path and the PATH search are version-checked — a broken
primary is passed over (probing continues), and the alternative fixed path
is then accepted on existence alone. -/
theorem C5_driver_probe_amended (env : Env) :
    (env.fsExists "/usr/bin/chromedriver".toList = true →
        env.runVersion "/usr/bin/chromedriver".toList = some 0 →
        verify_chromedriver env = some "/usr/bin/chromedriver".toList) ∧
      (env.runVersion "/usr/bin/chromedriver".toList ≠ some 0 →
        env.fsExists "/usr/local/bin/chromedriver".toList = true →
        verify_chromedriver env =
          some "/usr/local/bin/chromedriver".toList) ∧
      (env.fsExists "/usr/bin/chromedriver".toList = false →
        env.fsExists "/usr/local/bin/chromedriver".toList = false →
        env.isWindows = false →
        env.runVersion "chromedriver".toList ≠ some 0 →
        env.runVersion "chromedriver.exe".toList ≠ some 0 →
        download_with_webdriver_manager env = none →
        verify_chromedriver env = none) := by
  refine ⟨?_, ?_, ?_⟩
  · intro h1 h2
    unfold verify_chromedriver
    rw [if_pos ⟨h1, h2⟩]
  · intro h2 h3
    unfold verify_chromedriver
    rw [if_neg (fun hc => h2 hc.2), if_pos h3]
  · intro h1 h2 h3 h4 h5 h6
    unfold verify_chromedriver
    rw [if_neg (fun hc => by rw [hc.1] at h1; exact absurd h1 (by decide)),
        if_neg (fun hc => by rw [hc] at h2; exact absurd h2 (by decide)),
        if_neg (fun hc => by rw [hc.1] at h3; exact absurd h3 (by decide)),
        if_neg (fun hc => by rw [hc.1] at h3; exact absurd h3 (by decide)),
        if_neg h4, if_neg h5, h6]

/-- Witness for C5's amended statement: the three clauses at concrete
environments — verified primary accepted, broken primary passed over in
favour of the unchecked alternative, and `None` when nothing is there. -/
theorem C5_driver_probe_amended_witness :
    verify_chromedriver happyEnv = some "/usr/bin/chromedriver".toList ∧
      verify_chromedriver brokenPrimaryEnv =
        some "/usr/local/bin/chromedriver".toList ∧
      verify_chromedriver bareEnv = none :=
  ⟨(C5_driver_probe_amended happyEnv).1 (by decide) rfl,
   (C5_driver_probe_amended brokenPrimaryEnv).2.1 (by decide) (by decide),
   (C5_driver_probe_amended bareEnv).2.2 rfl rfl rfl (by decide) (by decide)
     rfl⟩

/-- C8: a failing `driver.get` (load timeout) is swallowed — on an
otherwise successful run the failure is recorded, the full key sequence is
still sent, and the call succeeds; a hard launch failure is not swallowed —
it yields an error result with the literal message. -/
theorem C8_load_failure_policy (env : Env) (u : List Char) :
    (∀ nu, (get_or_create_driver env).1 = some () →
        normalize_facebook_url u = .ok nu →
        env.setNavTimeoutOk = true → (∀ i, env.sendOk i = true) →
        env.readOk = true → env.getOk = false →
        (navigate_and_interact env u).loadFailed = true ∧
          (navigate_and_interact env u).sentKeys = keyPlan ∧
          (navigate_and_interact env u).result =
            some (nu, env.currentUrl, env.pageTitle) ∧
          (navigate_and_interact env u).errorMsg = none) ∧
      ((get_or_create_driver env).1 = none →
        (navigate_and_interact env u).result = none ∧
          (navigate_and_interact env u).errorMsg =
            some "Failed to initialize browser") := by
  constructor
  · intro nu hd hn ht hs hr hg
    obtain ⟨hk, hlf, hres⟩ := navigate_phase env u nu hd hn ht hs
    obtain ⟨hres1, hres2⟩ := hres hr
    refine ⟨?_, hk, hres1, hres2⟩
    rw [hlf, hg]
    rfl
  · intro hd
    obtain ⟨h1, h2, _, _⟩ := navigate_fail env u hd
    exact ⟨h1, h2⟩

/-- Witness for C8: a load-timeout environment still completes the
sequence and succeeds, while a launch-failure environment yields the
initialization error. -/
theorem C8_load_failure_policy_witness :
    ((navigate_and_interact timeoutEnv "123".toList).loadFailed = true ∧
        (navigate_and_interact timeoutEnv "123".toList).sentKeys = keyPlan ∧
        (navigate_and_interact timeoutEnv "123".toList).result =
          some ("https://www.facebook.com/profile.php?id=123".toList,
            timeoutEnv.currentUrl, timeoutEnv.pageTitle) ∧
        (navigate_and_interact timeoutEnv "123".toList).errorMsg = none) ∧
      ((navigate_and_interact launchFailEnv "123".toList).result = none ∧
        (navigate_and_interact launchFailEnv "123".toList).errorMsg =
          some "Failed to initialize browser") :=
  ⟨(C8_load_failure_policy timeoutEnv "123".toList).1
      "https://www.facebook.com/profile.php?id=123".toList (by decide)
      (by decide) rfl (fun i => rfl) rfl rfl,
   (C8_load_failure_policy launchFailEnv "123".toList).2 (by decide)⟩

/-- C9: no request handler assigns the pooled `driver_instance` — it stays
`None` across every request sequence from startup — so a `POST /shutdown`
always takes the no-instance branch: 200 with status message `No browser
instance to close`. -/
theorem C9_no_pooled_instance (env : Env) (rs : List Request) :
    (runRequests env initState rs).driver_instance = none ∧
      (handle env (runRequests env initState rs) Request.shutdown).2.status =
        200 ∧
      (handle env (runRequests env initState rs) Request.shutdown).2.body =
        "No browser instance to close".toList := by
  have h := runRequests_none env rs initState rfl
  refine ⟨h, ?_, ?_⟩ <;>
    · rcases hst : runRequests env initState rs with ⟨d⟩
      rw [hst] at h
      dsimp only at h
      subst h
      rfl

end FBBrowser
